import Mathlib

/-!
# Verification of the tropical variety construction

A shallow embedding of `src/sage/rings/semirings/tropical_variety.py`.

The construction in `TropicalVariety.__init__` converts each term of a
tropical polynomial into an affine-linear functional, solves the equality
of every pair of functionals, filters the resulting parametrized loci by a
dominance condition against all remaining terms, canonicalizes the surviving
constraint sets, and deduplicates structurally-equal components while
retaining the maximal weight.  The 2-variable specialization
(`TropicalCurve`) derives vertices, incidence vectors, simplicity and genus.

The exact symbolic equality/inequality solver used by the source
(`sage.symbolic.relation.solve`) is not part of this repository's sources;
it is modelled here from the spec's external-solver contract (one affine
equality solved for one unknown in terms of the rest; one affine strict
inequality solved to a half-line; a conjunction reduced to an interval or
reported infeasible).  The model reproduces every doctest of the source
file exactly, including the shapes of the emitted constraints.

For the two-variable case a solution of one linear equation in `(X, Y)` is
a pair of affine functions of a single parameter `r`; constraints are
half-line bounds on `r`.  Machine-level concerns do not arise: the source
computes with exact rationals, embedded as `ℚ`.
-/

/- The arithmetic of `ℚ` is `@[irreducible]` in Batteries; concrete runs of
the embedded construction are evaluated by `decide`, which needs these
operations to reduce. -/
set_option allowUnsafeReducibility true
attribute [local semireducible] Rat.add Rat.sub Rat.mul Rat.inv

namespace TropVar

/-- An affine function `sl * r + ct` of the single free parameter of a
two-variable component. -/
structure Aff where
  sl : ℚ
  ct : ℚ
deriving DecidableEq, Repr

/-- A term of a two-variable tropical polynomial: the exponent pair of the
monomial and the lifted coefficient. -/
structure Term2 where
  e1 : ℕ
  e2 : ℕ
  cf : ℚ
deriving DecidableEq, Repr

/-- The exponent key of a term, as stored in the polynomial dictionary. -/
def Term2.key (t : Term2) : ℕ × ℕ := (t.e1, t.e2)

/-- Modelled from the spec: the external solver's equality capability.
Solves `lin(a) = lin(b)` over `[X, Y]` for the first variable with nonzero
coefficient, expressing the solution set by one free parameter `r`;
returns `none` when the two functionals have identical gradients
(degenerate pair, skipped by the source). -/
def solveEq (a b : Term2) : Option (List Aff) :=
  let d1 : ℚ := (a.e1 : ℚ) - (b.e1 : ℚ)
  let d2 : ℚ := (a.e2 : ℚ) - (b.e2 : ℚ)
  let dc : ℚ := a.cf - b.cf
  if d1 ≠ 0 then some [⟨-d2 / d1, -dc / d1⟩, ⟨1, 0⟩]
  else if d2 ≠ 0 then some [⟨1, 0⟩, ⟨0, -dc / d2⟩]
  else none

/-- Substitute a parametrized point into the linear functional of a term
(`linear_eq[compare].subs(...)` in the source). -/
def evalTerm (t : Term2) (pt : List Aff) : Aff :=
  let p0 := pt.getD 0 ⟨0, 0⟩
  let p1 := pt.getD 1 ⟨0, 0⟩
  ⟨(t.e1 : ℚ) * p0.sl + (t.e2 : ℚ) * p1.sl,
   (t.e1 : ℚ) * p0.ct + (t.e2 : ℚ) * p1.ct + t.cf⟩

/-- A raw strict constraint on the free parameter, in the shape the
modelled solver emits it: `r > q`, `r < q`, or `q < r` (the latter is the
constant-on-the-left lower bound of a two-sided joint solution). -/
inductive RawBound where
  | gtB (q : ℚ)
  | ltB (q : ℚ)
  | lowltB (q : ℚ)
deriving DecidableEq, Repr

/-- Modelled from the spec: the external solver's inequality capability.
Under max-convention solves the strict dominance `mm > cv`; under
min-convention `mm < cv`.  Result: `none` if infeasible (constant false),
`some none` if trivially true (no constraint), `some (some b)` a half-line
bound on the parameter. -/
def halfLineSolve (z w : ℚ) : Option (Option RawBound) :=
  if z = 0 then (if 0 < w then some none else none)
  else if 0 < z then some (some (.gtB (-w / z)))
  else some (some (.ltB (-w / z)))

def solveIneq (useMin : Bool) (mm cv : Aff) : Option (Option RawBound) :=
  if useMin then halfLineSolve (cv.sl - mm.sl) (cv.ct - mm.ct)
  else halfLineSolve (mm.sl - cv.sl) (mm.ct - cv.ct)

/-- Compare the tied value against every remaining term, collecting the
dominance bounds; `none` when some comparison is infeasible (the pair is
discarded).  Terms whose substituted functional coincides with the tied
value give no constraint, as in the source. -/
def collectBounds (useMin : Bool) (mm : Aff) (pt : List Aff) :
    List Term2 → Option (List RawBound)
  | [] => some []
  | t :: ts =>
    let cv := evalTerm t pt
    if cv = mm then collectBounds useMin mm pt ts
    else
      match solveIneq useMin mm cv with
      | none => none
      | some none => collectBounds useMin mm pt ts
      | some (some b) =>
        match collectBounds useMin mm pt ts with
        | none => none
        | some bs => some (b :: bs)

/-- Modelled from the spec: the external solver's conjunction capability.
Reduces the collected strict half-line bounds to the interval shapes seen
in the source's doctests: no bound, a single lower `r > l`, a single upper
`r < u`, or a two-sided `l < r, r < u`; `none` when the conjunction is
infeasible. -/
def lowerOf (bs : List RawBound) : List ℚ :=
  bs.filterMap (fun b => match b with | .gtB q => some q | _ => none)

def upperOf (bs : List RawBound) : List ℚ :=
  bs.filterMap (fun b => match b with | .ltB q => some q | _ => none)

def jointSolve (bs : List RawBound) : Option (List RawBound) :=
  match (lowerOf bs).max?, (upperOf bs).min? with
  | none, none => some []
  | some l, none => some [.gtB l]
  | none, some u => some [.ltB u]
  | some l, some u => if l < u then some [.lowltB l, .ltB u] else none

/-- A canonicalized constraint on the parameter `t1`, in the structural
shape the source stores after turning strict solver output into `<=`/`>=`
(lines 288-325): `t1 >= q`, `t1 <= q`, `q <= t1`, `-Infinity < t1`,
`t1 < +Infinity`. -/
inductive Constr where
  | geC (q : ℚ)
  | leC (q : ℚ)
  | lowleC (q : ℚ)
  | negInfC
  | posInfC
deriving DecidableEq, Repr

/-- The operator flip of lines 317-324: solver output `>` becomes `>=`,
everything else becomes `<=`. -/
def canonBound : RawBound → Constr
  | .gtB q => .geC q
  | .ltB q => .leC q
  | .lowltB q => .lowleC q

/-- Lines 307-325: an empty condition receives the explicit unbounded
constraints for the parameter; otherwise each strict bound is flipped to
its closed form. -/
def canonize (bs : List RawBound) : List Constr :=
  if bs = [] then [.negInfC, .posInfC] else bs.map canonBound

/-- One iteration of the pairwise stage (lines 234-279) for the pair
`(a, b)`: solve the equality, substitute into all other terms, filter by
dominance, canonicalize.  `none` when the pair is degenerate or
infeasible. -/
def processPair (useMin : Bool) (p : List Term2) (a b : Term2) :
    Option (List Aff × List Constr) :=
  match solveEq a b with
  | none => none
  | some pt =>
    let mm := evalTerm a pt
    let others := p.filter (fun t => t.key ≠ a.key ∧ t.key ≠ b.key)
    match collectBounds useMin mm pt others with
    | none => none
    | some bs =>
      match jointSolve bs with
      | none => none
      | some j => some (pt, canonize j)

/-- All unordered pairs in the order of `itertools.combinations`. -/
def pairsOf : List α → List (α × α)
  | [] => []
  | x :: xs => xs.map (fun y => (x, y)) ++ pairsOf xs

/-- The weight (order) of a witnessing pair: gcd of the coordinate-wise
absolute exponent differences (lines 280-284). -/
def gcdKey (k1 k2 : ℕ × ℕ) : ℕ :=
  Nat.gcd ((k1.1 : ℤ) - (k2.1 : ℤ)).natAbs ((k1.2 : ℤ) - (k2.2 : ℤ)).natAbs

/-- A finalized component: parametric point, canonical constraint set,
witnessing pair of exponent keys, and weight. -/
structure Comp where
  pt : List Aff
  cons : List Constr
  wit : (ℕ × ℕ) × (ℕ × ℕ)
  ord : ℕ
deriving DecidableEq, Repr

instance : Inhabited Comp := ⟨⟨[], [], ((0, 0), (0, 0)), 0⟩⟩

/-- The surviving candidates of the pairwise stage, in discovery order. -/
def candidates (useMin : Bool) (p : List Term2) : List Comp :=
  (pairsOf p).filterMap (fun ab =>
    (processPair useMin p ab.1 ab.2).map (fun pc =>
      ⟨pc.1, pc.2, (ab.1.key, ab.2.key), gcdKey ab.1.key ab.2.key⟩))

/-- Insert one candidate into the accumulated hypersurface: if a component
with the same (parametrization, constraint set) is present, keep it and
raise its weight and witness when the new candidate's weight is strictly
larger; otherwise append (lines 331-340). -/
def insertComp (c : Comp) : List Comp → List Comp
  | [] => [c]
  | d :: ds =>
    if d.pt = c.pt ∧ d.cons = c.cons then
      (if d.ord < c.ord then { d with ord := c.ord, wit := c.wit } else d) :: ds
    else d :: insertComp c ds

/-- The deduplication pass over the discovered candidates. -/
def dedup (l : List Comp) : List Comp :=
  l.foldl (fun acc c => insertComp c acc) []

/-- The hypersurface object: the finalized ordered list of components
(`self._hypersurface`). -/
structure TropicalVariety where
  hypersurface : List Comp
deriving DecidableEq, Repr

/-- The whole construction of `TropicalVariety.__init__` for a valid
two-variable tropical polynomial, given as the ordered term list of its
dictionary: a single-term polynomial yields an empty hypersurface
(line 214); otherwise the pairwise stage followed by deduplication. -/
def buildTV (useMin : Bool) (p : List Term2) : TropicalVariety :=
  if p.length = 1 then ⟨[]⟩ else ⟨dedup (candidates useMin p)⟩

/-- `number_of_components` (line 358). -/
def numberOfComponents (tv : TropicalVariety) : ℕ :=
  tv.hypersurface.length

/-- Python error kinds surfaced by the modelled methods. -/
inductive PyErr where
  | valueErr
  | indexErr
deriving DecidableEq, Repr

/-- A result of a Python method: a value or a raised error. -/
inductive PyRes (α : Type) where
  | ok (a : α)
  | err (e : PyErr)
deriving DecidableEq, Repr

/-- The input actually handed to the constructor: either a multivariate
tropical polynomial (with its semiring's convention flag) or any other
object, carrying only its printed representation. -/
inductive SageInput where
  | trop (useMin : Bool) (p : List Term2)
  | nonPoly (txt : String)

/-- The constructor including its input validation (lines 209-215): a
non-polynomial input raises `ValueError`; a valid polynomial constructs
the hypersurface. -/
def tropicalVarietyInit : SageInput → PyRes TropicalVariety
  | .nonPoly _ => .err .valueErr
  | .trop m p => .ok (buildTV m p)

/-- `dimension` (line 356): reads the length of the first component's
parametric point, raising `IndexError` when there are no components. -/
def dimension (tv : TropicalVariety) : PyRes ℕ :=
  match tv.hypersurface with
  | [] => .err .indexErr
  | c :: _ => .ok c.pt.length

/-!
## The curve analysis (`TropicalCurve`, two variables)
-/

/-- The numeric value of a constraint's right-hand side, as used by
`_parameter_intervals` on a second constraint. -/
def Constr.rightVal : Constr → Option ℚ
  | .geC q => some q
  | .leC q => some q
  | .lowleC q => some q
  | .negInfC => none
  | .posInfC => none

/-- The numeric value of a constraint's left-hand side, as used by
`_parameter_intervals` on a first constraint: the lower bound of a
two-sided solution, or `-Infinity` for an unbounded component.  (Shapes
that cannot occur as a first-of-two constraint yield `none`.) -/
def Constr.leftVal : Constr → Option ℚ
  | .geC _ => none
  | .leC _ => none
  | .lowleC q => some q
  | .negInfC => none
  | .posInfC => none

/-- `_parameter_intervals` (lines 818-850) for one component: a single
constraint is read as a half-line (or all of the line after the `>=`/`<=`
closure); with two constraints the first supplies the lower and the second
the upper bound, a `-Infinity` lower meaning the whole line.  Result
`(lower, upper)` with `none` standing for the corresponding infinity. -/
def interval (cs : List Constr) : Option ℚ × Option ℚ :=
  match cs with
  | [c] =>
    match c with
    | .geC q => (some q, none)
    | .leC q => (none, some q)
    | .lowleC q => (some q, none)
    | .negInfC => (none, none)
    | .posInfC => (none, none)
  | c1 :: c2 :: _ =>
    match c1.leftVal with
    | none => (none, none)
    | some l => (some l, c2.rightVal)
  | [] => (none, none)

/-- Evaluate a component's parametric point at a parameter value. -/
def evalPt (pt : List Aff) (r : ℚ) : ℚ × ℚ :=
  let p0 := pt.getD 0 ⟨0, 0⟩
  let p1 := pt.getD 1 ⟨0, 0⟩
  (p0.sl * r + p0.ct, p1.sl * r + p1.ct)

/-- Record one endpoint incidence under its coordinate key, preserving the
insertion order of the Python dictionary `vert_comp`. -/
def addInc (k : ℚ × ℚ) (v : ℕ × Bool) :
    List ((ℚ × ℚ) × List (ℕ × Bool)) → List ((ℚ × ℚ) × List (ℕ × Bool))
  | [] => [(k, [v])]
  | (k0, l) :: rest =>
    if k0 = k then (k0, l ++ [v]) :: rest else (k0, l) :: addInc k v rest

/-- Lines 739-760: when the curve has at least three components, group the
finite interval endpoints of each component by their coordinates; `true`
marks a lower endpoint (`'pos'`), `false` an upper endpoint (`'neg'`). -/
def vertComp (tv : TropicalVariety) : List ((ℚ × ℚ) × List (ℕ × Bool)) :=
  if 3 ≤ tv.hypersurface.length then
    (tv.hypersurface.enum).foldl (fun m ic =>
      let (lo, up) := interval ic.2.cons
      let m1 := match lo with
        | some q => addInc (evalPt ic.2.pt q) (ic.1, true) m
        | none => m
      match up with
        | some q => addInc (evalPt ic.2.pt q) (ic.1, false) m1
        | none => m1) []
  else []

/-- The gcd of two rationals as computed by Sage: gcd of the numerators
over the lcm of the denominators (always nonnegative). -/
def ratGcd (x y : ℚ) : ℚ :=
  (Nat.gcd x.num.natAbs y.num.natAbs : ℚ) / (Nat.lcm x.den y.den : ℚ)

/-- Lines 762-769: the primitive integer direction of a component, the
derivative of its parametric point divided by the rational gcd of its two
coordinates. -/
def tempVec (c : Comp) : ℚ × ℚ :=
  let dx := (c.pt.getD 0 ⟨0, 0⟩).sl
  let dy := (c.pt.getD 1 ⟨0, 0⟩).sl
  let m := ratGcd dx dy
  (dx / m, dy / m)

/-- The mathematical content of `vectors_of_vertices` (lines 771-781): for
every vertex, the weight-scaled direction vectors of its incident
components, oriented outward (`'pos'` incidences keep the direction,
`'neg'` incidences negate it).  Total: the parameter symbol the source
reads off the first component is structurally `t1` here. -/
def incidenceVectors (tv : TropicalVariety) :
    List ((ℚ × ℚ) × List (ℚ × ℚ)) :=
  (vertComp tv).map (fun kl =>
    (kl.1, kl.2.map (fun ib =>
      let c := tv.hypersurface.getD ib.1 default
      let w : ℚ := (c.ord : ℚ)
      let v := tempVec c
      if ib.2 then (w * v.1, w * v.2) else (-(w * v.1), -(w * v.2)))))

/-- `vectors_of_vertices` including its failure mode: line 764 reads
`self._hypersurface[0]`, raising `IndexError` on a variety with no
components. -/
def vectorsOfVertices (tv : TropicalVariety) :
    PyRes (List ((ℚ × ℚ) × List (ℚ × ℚ))) :=
  match tv.hypersurface with
  | [] => .err .indexErr
  | _ :: _ => .ok (incidenceVectors tv)

/-- `vertices` (lines 701-720): the keys of `vectors_of_vertices`. -/
def vertices (tv : TropicalVariety) : PyRes (List (ℚ × ℚ)) :=
  match vectorsOfVertices tv with
  | .err e => .err e
  | .ok vv => .ok (vv.map Prod.fst)

/-- The boolean check of `is_simple` (lines 788-797) on the vertex-vector
association: no vertex with more than four incident vectors, and a vertex
with exactly four has the negation of each of its vectors among them. -/
def simpleCheck (vv : List ((ℚ × ℚ) × List (ℚ × ℚ))) : Bool :=
  vv.all (fun kl =>
    if 4 < kl.2.length then false
    else if kl.2.length = 4 then
      kl.2.all (fun v => kl.2.contains (-v.1, -v.2))
    else true)

/-- `is_simple` including the `IndexError` it inherits from
`vectors_of_vertices` on an empty hypersurface. -/
def isSimple (tv : TropicalVariety) : PyRes Bool :=
  match vectorsOfVertices tv with
  | .err e => .err e
  | .ok vv => .ok (simpleCheck vv)

/-- The number of trivalent vertices (lines 802-805). -/
def trivalentCount (tv : TropicalVariety) : ℕ :=
  ((incidenceVectors tv).filter (fun kl => kl.2.length = 3)).length

/-- The count the source calls `unbounded` (lines 807-811): components
whose constraint list has exactly one element. -/
def oneConstraintCount (tv : TropicalVariety) : ℕ :=
  (tv.hypersurface.filter (fun c => c.cons.length = 1)).length

/-- `genus` (lines 799-813): raises `ValueError` on a non-simple curve
(and inherits `IndexError` on an empty one); otherwise
`trivalent//2 - unbounded//2 + 1` with floor division. -/
def genus (tv : TropicalVariety) : PyRes ℤ :=
  match isSimple tv with
  | .err e => .err e
  | .ok false => .err .valueErr
  | .ok true =>
    .ok ((trivalentCount tv : ℤ) / 2 - (oneConstraintCount tv : ℤ) / 2 + 1)

/-- The number of components whose feasible parameter interval is
unbounded on at least one side (the claim's reading of "unbounded"). -/
def unboundedIntervalCount (tv : TropicalVariety) : ℕ :=
  (tv.hypersurface.filter (fun c =>
    (interval c.cons).1 = none ∨ (interval c.cons).2 = none)).length

/-- The number of components whose feasible parameter interval is a
half-line: unbounded on exactly one side. -/
def halfLineCount (tv : TropicalVariety) : ℕ :=
  (tv.hypersurface.filter (fun c =>
    ((interval c.cons).1 = none) ≠ ((interval c.cons).2 = none))).length

/-!
## The three-variable construction

The same pipeline for `n = 3`: one equality in `(X, Y, Z)` is solved by two
free parameters `r1, r2`; the canonical renaming of lines 293-326 maps the
parameters to `t1, t2` in order of first appearance in the parametric
point's coordinates (a coordinate's variables are scanned in sorted order,
as `Expression.variables()` returns them sorted).
-/

/-- A term of a three-variable tropical polynomial. -/
structure Term3 where
  e1 : ℕ
  e2 : ℕ
  e3 : ℕ
  cf : ℚ
deriving DecidableEq, Repr

/-- The exponent key of a three-variable term. -/
def Term3.key (t : Term3) : ℕ × ℕ × ℕ := (t.e1, t.e2, t.e3)

/-- An affine function `c1 * r1 + c2 * r2 + ct` of the two free
parameters. -/
structure Aff2 where
  c1 : ℚ
  c2 : ℚ
  ct : ℚ
deriving DecidableEq, Repr

/-- Modelled from the spec: the equality capability for three variables.
Solves `lin(a) = lin(b)` for the first variable with nonzero coefficient,
the remaining variables becoming the free parameters in variable order. -/
def solveEq3 (a b : Term3) : Option (List Aff2) :=
  let d1 : ℚ := (a.e1 : ℚ) - (b.e1 : ℚ)
  let d2 : ℚ := (a.e2 : ℚ) - (b.e2 : ℚ)
  let d3 : ℚ := (a.e3 : ℚ) - (b.e3 : ℚ)
  let dc : ℚ := a.cf - b.cf
  if d1 ≠ 0 then
    some [⟨-d2 / d1, -d3 / d1, -dc / d1⟩, ⟨1, 0, 0⟩, ⟨0, 1, 0⟩]
  else if d2 ≠ 0 then
    some [⟨1, 0, 0⟩, ⟨-d1 / d2, -d3 / d2, -dc / d2⟩, ⟨0, 1, 0⟩]
  else if d3 ≠ 0 then
    some [⟨1, 0, 0⟩, ⟨0, 1, 0⟩, ⟨-d1 / d3, -d2 / d3, -dc / d3⟩]
  else none

/-- Substitute a parametrized point into a three-variable term's linear
functional. -/
def evalTerm3 (t : Term3) (pt : List Aff2) : Aff2 :=
  let p0 := pt.getD 0 ⟨0, 0, 0⟩
  let p1 := pt.getD 1 ⟨0, 0, 0⟩
  let p2 := pt.getD 2 ⟨0, 0, 0⟩
  ⟨(t.e1 : ℚ) * p0.c1 + (t.e2 : ℚ) * p1.c1 + (t.e3 : ℚ) * p2.c1,
   (t.e1 : ℚ) * p0.c2 + (t.e2 : ℚ) * p1.c2 + (t.e3 : ℚ) * p2.c2,
   (t.e1 : ℚ) * p0.ct + (t.e2 : ℚ) * p1.ct + (t.e3 : ℚ) * p2.ct + t.cf⟩

/-- A strict dominance constraint solved for one parameter: parameter
`v` is `>` (`isLow = true`) or `<` the affine bound `sl * r_other + ct`
in the other parameter. -/
structure RawB3 where
  v : Fin 2
  isLow : Bool
  sl : ℚ
  ct : ℚ
deriving DecidableEq, Repr

/-- Modelled from the spec: the inequality capability over two parameters;
solved for the last parameter with nonzero coefficient. -/
def solveIneq3 (useMin : Bool) (mm cv : Aff2) : Option (Option RawB3) :=
  let z1 : ℚ := if useMin then cv.c1 - mm.c1 else mm.c1 - cv.c1
  let z2 : ℚ := if useMin then cv.c2 - mm.c2 else mm.c2 - cv.c2
  let w : ℚ := if useMin then cv.ct - mm.ct else mm.ct - cv.ct
  if z2 ≠ 0 then
    some (some ⟨1, 0 < z2, -z1 / z2, -w / z2⟩)
  else if z1 ≠ 0 then
    some (some ⟨0, 0 < z1, 0, -w / z1⟩)
  else if 0 < w then some none
  else none

/-- Collect the dominance bounds for a three-variable pair; `none` when a
comparison is infeasible. -/
def collectBounds3 (useMin : Bool) (mm : Aff2) (pt : List Aff2) :
    List Term3 → Option (List RawB3)
  | [] => some []
  | t :: ts =>
    let cv := evalTerm3 t pt
    if cv = mm then collectBounds3 useMin mm pt ts
    else
      match solveIneq3 useMin mm cv with
      | none => none
      | some none => collectBounds3 useMin mm pt ts
      | some (some b) =>
        match collectBounds3 useMin mm pt ts with
        | none => none
        | some bs => some (b :: bs)

/-- A joint-solution constraint: the interval shapes for one parameter
with a constant bound, or a general solved constraint passed through. -/
inductive JC where
  | gtJ (v : Fin 2) (q : ℚ)
  | ltJ (v : Fin 2) (q : ℚ)
  | lowltJ (v : Fin 2) (q : ℚ)
  | genJ (b : RawB3)
deriving DecidableEq, Repr

/-- Reduce the constant bounds of a single parameter to interval shape. -/
def reduceVar (v : Fin 2) (lows ups : List ℚ) : Option (List JC) :=
  match lows.max?, ups.min? with
  | none, none => some []
  | some l, none => some [.gtJ v l]
  | none, some u => some [.ltJ v u]
  | some l, some u => if l < u then some [.lowltJ v l, .ltJ v u] else none

/-- Modelled from the spec: the conjunction capability over the parameters
the constraints mention.  Constant bounds on each parameter are reduced to
interval shape (infeasibility propagating); constraints relating the two
parameters are returned as part of the combined description. -/
def jointSolve3 (bs : List RawB3) : Option (List JC) :=
  let c0 := bs.filter (fun b => b.sl = 0 ∧ b.v = 0)
  let c1 := bs.filter (fun b => b.sl = 0 ∧ b.v = 1)
  let gens := bs.filter (fun b => b.sl ≠ 0)
  let lows0 := (c0.filter (fun b => b.isLow)).map RawB3.ct
  let ups0 := (c0.filter (fun b => ¬ b.isLow)).map RawB3.ct
  let lows1 := (c1.filter (fun b => b.isLow)).map RawB3.ct
  let ups1 := (c1.filter (fun b => ¬ b.isLow)).map RawB3.ct
  match reduceVar 0 lows0 ups0, reduceVar 1 lows1 ups1 with
  | some j0, some j1 => some (j0 ++ j1 ++ gens.map JC.genJ)
  | _, _ => none

/-- A canonicalized three-variable constraint on the parameters `t1, t2`
after the `>` to `>=` closure of lines 317-324: constant bounds
`tv >= q`, `tv <= q`, `q <= tv`, affine bounds between the parameters, and
the explicit unbounded constraints of lines 307-312. -/
inductive Constr3 where
  | geC3 (v : Fin 2) (q : ℚ)
  | leC3 (v : Fin 2) (q : ℚ)
  | lowleC3 (v : Fin 2) (q : ℚ)
  | geA3 (v : Fin 2) (sl ct : ℚ)
  | leA3 (v : Fin 2) (sl ct : ℚ)
  | negInfC3 (v : Fin 2)
  | posInfC3 (v : Fin 2)
deriving DecidableEq, Repr

/-- The operator closure on a joint-solution constraint. -/
def canonJ : JC → Constr3
  | .gtJ v q => .geC3 v q
  | .ltJ v q => .leC3 v q
  | .lowltJ v q => .lowleC3 v q
  | .genJ b => if b.isLow then .geA3 b.v b.sl b.ct else .leA3 b.v b.sl b.ct

/-- Lines 307-325 for two parameters: an empty condition receives explicit
unbounded constraints for every parameter, in parameter order. -/
def canonize3 (js : List JC) : List Constr3 :=
  if js = [] then [.negInfC3 0, .posInfC3 0, .negInfC3 1, .posInfC3 1]
  else js.map canonJ

/-- Swap the two parameters in an affine expression. -/
def swapAff2 (a : Aff2) : Aff2 := ⟨a.c2, a.c1, a.ct⟩

/-- Swap the two parameters in a joint constraint. -/
def swapJC : JC → JC
  | .gtJ v q => .gtJ (1 - v) q
  | .ltJ v q => .ltJ (1 - v) q
  | .lowltJ v q => .lowltJ (1 - v) q
  | .genJ b => .genJ ⟨1 - b.v, b.isLow, b.sl, b.ct⟩

/-- Lines 293-306: the canonical renaming maps the free parameters to
`t1, t2` in order of first appearance scanning the parametric point's
coordinates; the renaming is a swap exactly when the second parameter
appears strictly before the first. -/
def paramSwapped (pt : List Aff2) : Bool :=
  let i1 := pt.findIdx (fun a => a.c1 ≠ 0)
  let i2 := pt.findIdx (fun a => a.c2 ≠ 0)
  decide (i2 < i1)

/-- The pairwise stage for one three-variable pair, through canonical
renaming. -/
def processPair3 (useMin : Bool) (p : List Term3) (a b : Term3) :
    Option (List Aff2 × List Constr3) :=
  match solveEq3 a b with
  | none => none
  | some pt =>
    let mm := evalTerm3 a pt
    let others := p.filter (fun t => t.key ≠ a.key ∧ t.key ≠ b.key)
    match collectBounds3 useMin mm pt others with
    | none => none
    | some bs =>
      match jointSolve3 bs with
      | none => none
      | some js =>
        if paramSwapped pt then
          some (pt.map swapAff2, canonize3 (js.map swapJC))
        else some (pt, canonize3 js)

/-- The weight of a three-variable witnessing pair. -/
def gcdKey3 (k1 k2 : ℕ × ℕ × ℕ) : ℕ :=
  Nat.gcd ((k1.1 : ℤ) - (k2.1 : ℤ)).natAbs
    (Nat.gcd ((k1.2.1 : ℤ) - (k2.2.1 : ℤ)).natAbs
      ((k1.2.2 : ℤ) - (k2.2.2 : ℤ)).natAbs)

/-- A finalized three-variable component. -/
structure Comp3 where
  pt : List Aff2
  cons : List Constr3
  wit : (ℕ × ℕ × ℕ) × (ℕ × ℕ × ℕ)
  ord : ℕ
deriving DecidableEq, Repr

instance : Inhabited Comp3 := ⟨⟨[], [], ((0, 0, 0), (0, 0, 0)), 0⟩⟩

/-- The surviving three-variable candidates, in discovery order. -/
def candidates3 (useMin : Bool) (p : List Term3) : List Comp3 :=
  (pairsOf p).filterMap (fun ab =>
    (processPair3 useMin p ab.1 ab.2).map (fun pc =>
      ⟨pc.1, pc.2, (ab.1.key, ab.2.key), gcdKey3 ab.1.key ab.2.key⟩))

/-- The deduplication step for three-variable components. -/
def insertComp3 (c : Comp3) : List Comp3 → List Comp3
  | [] => [c]
  | d :: ds =>
    if d.pt = c.pt ∧ d.cons = c.cons then
      (if d.ord < c.ord then { d with ord := c.ord, wit := c.wit } else d) :: ds
    else d :: insertComp3 c ds

/-- The deduplication pass for three-variable components. -/
def dedup3 (l : List Comp3) : List Comp3 :=
  l.foldl (fun acc c => insertComp3 c acc) []

/-- The three-variable hypersurface. -/
structure TropicalVariety3 where
  hypersurface : List Comp3
deriving DecidableEq, Repr

/-- The construction for a valid three-variable tropical polynomial. -/
def buildTV3 (useMin : Bool) (p : List Term3) : TropicalVariety3 :=
  if p.length = 1 then ⟨[]⟩ else ⟨dedup3 (candidates3 useMin p)⟩

/-- `dimension` on a three-variable variety. -/
def dimension3 (tv : TropicalVariety3) : PyRes ℕ :=
  match tv.hypersurface with
  | [] => .err .indexErr
  | c :: _ => .ok c.pt.length

/-- Whether a canonical three-variable constraint mentions parameter
`v`. -/
def mentionsParam (v : Fin 2) : Constr3 → Bool
  | .geC3 u _ => u = v
  | .leC3 u _ => u = v
  | .lowleC3 u _ => u = v
  | .geA3 u sl _ => u = v ∨ (sl ≠ 0 ∧ u ≠ v)
  | .leA3 u sl _ => u = v ∨ (sl ≠ 0 ∧ u ≠ v)
  | .negInfC3 u => u = v
  | .posInfC3 u => u = v

/-!
## Example polynomials
-/

/-- The polynomial of the concrete scenario `{(): 0, (1,0): 1, (1,1): 0}`
(printed `0*x*y + 1*x + 0`), in the term order of its dictionary. -/
def exPoly : List Term2 := [⟨1, 0, 1⟩, ⟨1, 1, 0⟩, ⟨0, 0, 0⟩]

/-- A degenerate polynomial `0 + 0*x + (-5)*x^2` whose max-convention curve
is two full vertical lines (every constraint set empty before
canonicalization). -/
def exColl : List Term2 := [⟨0, 0, 0⟩, ⟨1, 0, 0⟩, ⟨2, 0, -5⟩]

/-- The three-variable polynomial `x + y + 1`. -/
def exPoly3 : List Term3 := [⟨1, 0, 0, 0⟩, ⟨0, 1, 0, 0⟩, ⟨0, 0, 0, 0⟩]

/-!
## Semantic values, for the geometric analysis of the curve
-/

/-- The value of an affine function of the free parameter. -/
def Aff.aeval (f : Aff) (r : ℚ) : ℚ := f.sl * r + f.ct

/-- The value of a term's linear functional at a point of the plane. -/
def tval (t : Term2) (P : ℚ × ℚ) : ℚ :=
  (t.e1 : ℚ) * P.1 + (t.e2 : ℚ) * P.2 + t.cf

/-- The satisfaction of a raw strict bound by a parameter value. -/
def holdsB (b : RawBound) (r : ℚ) : Prop :=
  match b with
  | .gtB q => q < r
  | .ltB q => r < q
  | .lowltB q => q < r

/-- The sign with which the convention orients a dominance comparison:
`+1` under max, `-1` under min. -/
def sgnQ (m : Bool) : ℚ := if m then -1 else 1

/-- The signed dominance margin of the pair member `a` over the term `u`
along a parametrized line: positive exactly when `a` strictly dominates
`u` under the convention at that parameter value. -/
def dq (m : Bool) (a u : Term2) (pt : List Aff) (r : ℚ) : ℚ :=
  sgnQ m * ((evalTerm a pt).aeval r - (evalTerm u pt).aeval r)

/-- The planar cross product. -/
def crossQ (v w : ℚ × ℚ) : ℚ := v.1 * w.2 - v.2 * w.1

/-- The gradient of a term's linear functional. -/
def gradQ (t : Term2) : ℚ × ℚ := ((t.e1 : ℚ), (t.e2 : ℚ))

/-- The direction vector of a parametrized line. -/
def dirOf (pt : List Aff) : ℚ × ℚ :=
  ((pt.getD 0 ⟨0, 0⟩).sl, (pt.getD 1 ⟨0, 0⟩).sl)

/-- The finite endpoint of a component's parameter interval on the chosen
side: `true` reads the lower endpoint, `false` the upper. -/
def endpointAt (side : Bool) (cs : List Constr) : Option ℚ :=
  if side then (interval cs).1 else (interval cs).2

/-- The flat list of endpoint incidences exactly as the grouping loop of
`vectors_of_vertices` generates them: for each indexed component, its
finite lower endpoint (marked `true`) followed by its finite upper
endpoint (marked `false`), each keyed by its coordinates. -/
def endpointEvents (tv : TropicalVariety) : List ((ℚ × ℚ) × (ℕ × Bool)) :=
  tv.hypersurface.enum.flatMap (fun ic =>
    (match (interval ic.2.cons).1 with
      | some q => [(evalPt ic.2.pt q, (ic.1, true))]
      | none => []) ++
    (match (interval ic.2.cons).2 with
      | some q => [(evalPt ic.2.pt q, (ic.1, false))]
      | none => []))

/-- The slope of the signed dominance margin along the parametrized line. -/
def zsl (m : Bool) (a u : Term2) (pt : List Aff) : ℚ :=
  sgnQ m * ((evalTerm a pt).sl - (evalTerm u pt).sl)

/-- The outward orientation of an interval endpoint: at a lower endpoint
the component lies towards larger parameter values, at an upper endpoint
towards smaller ones. -/
def esign (side : Bool) : ℚ := if side then 1 else -1

/-- The gradient difference of a term against a base term. -/
def hvec (s u : Term2) : ℚ × ℚ :=
  ((u.e1 : ℚ) - (s.e1 : ℚ), (u.e2 : ℚ) - (s.e2 : ℚ))

/-- The total number of incidences recorded under a key in the grouping
association list built by `addInc`. -/
def lenAt (k : ℚ × ℚ) (ms : List ((ℚ × ℚ) × List (ℕ × Bool))) : ℕ :=
  ((ms.filter (fun e => e.1 = k)).map (fun e => e.2.length)).sum

/-!
## Shape lemmas for the two-variable pipeline
-/

/-- The four constraint-list shapes the joint solver can emit after
canonicalization: a closed lower half-line, a closed upper half-line, a
closed bounded interval with distinct endpoints, or the explicitly
unbounded line. -/
def ConsShape (cs : List Constr) : Prop :=
  (∃ q, cs = [.geC q]) ∨ (∃ q, cs = [.leC q]) ∨
    (∃ l u, cs = [.lowleC l, .leC u] ∧ l < u) ∨ cs = [.negInfC, .posInfC]

/-- The invariant of the accumulated hypersurface relative to the
candidates already processed: every accumulated component's data
originates in a processed candidate; its weight dominates every processed
candidate with the same (parametrization, constraints); every processed
candidate is represented; and the accumulated keys are pairwise
distinct. -/
structure DedupInv (src acc : List Comp) : Prop where
  origin : ∀ c ∈ acc, ∃ d ∈ src,
    d.pt = c.pt ∧ d.cons = c.cons ∧ d.wit = c.wit ∧ d.ord = c.ord
  maxOrd : ∀ c ∈ acc, ∀ d ∈ src, d.pt = c.pt → d.cons = c.cons →
    d.ord ≤ c.ord
  complete : ∀ d ∈ src, ∃ c ∈ acc, c.pt = d.pt ∧ c.cons = d.cons
  distinct : acc.Pairwise (fun c d => ¬(c.pt = d.pt ∧ c.cons = d.cons))

/-- The claim's explicit non-simplicity condition: some vertex has more
than four incident vectors, or exactly four that are not symmetric under
negation. -/
def BadVertex (vv : List ((ℚ × ℚ) × List (ℚ × ℚ))) : Prop :=
  ∃ kl ∈ vv, 4 < kl.2.length ∨
    (kl.2.length = 4 ∧ ∃ v ∈ kl.2, ¬ ((-v.1, -v.2) ∈ kl.2))

/-- The first component of the concrete scenario, used to witness C3. -/
def c3ExComp : Comp := ⟨[⟨1, 0⟩, ⟨0, 1⟩], [.geC (-1)], ((1, 0), (1, 1)), 1⟩

/-- The convention flip on the result of one dominance solve: infeasible
and trivially-true swap, and a lower bound becomes the upper bound with
the same boundary value. -/
def flipB : Option (Option RawBound) → Option (Option RawBound)
  | none => some none
  | some none => none
  | some (some (.gtB q)) => some (some (.ltB q))
  | some (some (.ltB q)) => some (some (.gtB q))
  | some (some (.lowltB q)) => some (some (.lowltB q))

/-- The flip of a canonical constraint: `>=` and `<=` exchange. -/
def flipConstr : Constr → Constr
  | .geC q => .leC q
  | .leC q => .geC q
  | .lowleC q => .lowleC q
  | .negInfC => .negInfC
  | .posInfC => .posInfC

theorem solveEq_length {a b : Term2} {pt : List Aff}
    (h : solveEq a b = some pt) : pt.length = 2 := by
  simp only [solveEq] at h
  split at h
  · simp only [Option.some.injEq] at h
    subst h; rfl
  · split at h
    · simp only [Option.some.injEq] at h
      subst h; rfl
    · exact absurd h (by simp)

theorem solveEq_key_ne {a b : Term2} {pt : List Aff}
    (h : solveEq a b = some pt) : a.key ≠ b.key := by
  intro hk
  have h1 : a.e1 = b.e1 := congrArg Prod.fst hk
  have h2 : a.e2 = b.e2 := congrArg Prod.snd hk
  unfold solveEq at h
  rw [h1, h2, sub_self, sub_self] at h
  simp at h

theorem gcdKey_pos {k1 k2 : ℕ × ℕ} (h : k1 ≠ k2) : 0 < gcdKey k1 k2 := by
  rcases Nat.eq_zero_or_pos (gcdKey k1 k2) with h0 | hp
  · exfalso
    unfold gcdKey at h0
    rw [Nat.gcd_eq_zero_iff] at h0
    apply h
    have e1 : (k1.1 : ℤ) = (k2.1 : ℤ) := by
      have := h0.1
      omega
    have e2 : (k1.2 : ℤ) = (k2.2 : ℤ) := by
      have := h0.2
      omega
    exact Prod.ext (by exact_mod_cast e1) (by exact_mod_cast e2)
  · exact hp

theorem processPair_some {m : Bool} {p : List Term2} {a b : Term2}
    {pt : List Aff} {cs : List Constr}
    (h : processPair m p a b = some (pt, cs)) :
    solveEq a b = some pt ∧ ConsShape cs := by
  simp only [processPair] at h
  rcases he : solveEq a b with _ | pt'
  · rw [he] at h; simp at h
  · rw [he] at h
    dsimp only at h
    rcases hc : collectBounds m (evalTerm a pt') pt'
        (p.filter (fun t => t.key ≠ a.key ∧ t.key ≠ b.key)) with _ | bs
    · rw [hc] at h; simp at h
    · rw [hc] at h
      dsimp only at h
      rcases hj : jointSolve bs with _ | j
      · rw [hj] at h; simp at h
      · rw [hj] at h
        simp only [Option.some.injEq, Prod.mk.injEq] at h
        obtain ⟨hpt, hcs⟩ := h
        constructor
        · exact congrArg some hpt
        · rw [← hcs]
          unfold jointSolve at hj
          rcases hl : (lowerOf bs).max? with _ | l <;>
            rcases hu : (upperOf bs).min? with _ | u <;>
            rw [hl, hu] at hj <;> dsimp only at hj
          · obtain rfl : ([] : List RawBound) = j := by simpa using hj
            right; right; right; rfl
          · obtain rfl : [RawBound.ltB u] = j := by simpa using hj
            right; left; exact ⟨u, rfl⟩
          · obtain rfl : [RawBound.gtB l] = j := by simpa using hj
            left; exact ⟨l, rfl⟩
          · split at hj
            · obtain rfl : [RawBound.lowltB l, RawBound.ltB u] = j := by
                simpa using hj
              right; right; left
              exact ⟨l, u, rfl, by assumption⟩
            · simp at hj

theorem mem_candidates {m : Bool} {p : List Term2} {c : Comp}
    (h : c ∈ candidates m p) :
    ∃ a b, (a, b) ∈ pairsOf p ∧ processPair m p a b = some (c.pt, c.cons) ∧
      c.wit = (a.key, b.key) ∧ c.ord = gcdKey a.key b.key := by
  unfold candidates at h
  rw [List.mem_filterMap] at h
  obtain ⟨ab, hab, hmap⟩ := h
  rcases hp : processPair m p ab.1 ab.2 with _ | pc
  · rw [hp] at hmap; simp at hmap
  · rw [hp] at hmap
    simp only [Option.map_some', Option.some.injEq] at hmap
    refine ⟨ab.1, ab.2, by simpa using hab, ?_, ?_, ?_⟩
    · rw [hp, ← hmap]
    · rw [← hmap]
    · rw [← hmap]

/-- Every candidate's weight is the gcd of its own witnessing pair's
exponent differences, and is positive because a solvable pair has distinct
exponent keys. -/
theorem candidates_ord {m : Bool} {p : List Term2} {c : Comp}
    (h : c ∈ candidates m p) :
    c.ord = gcdKey c.wit.1 c.wit.2 ∧ 0 < c.ord ∧ ConsShape c.cons ∧
      c.pt.length = 2 := by
  obtain ⟨a, b, _, hpp, hwit, hord⟩ := mem_candidates h
  obtain ⟨hse, hshape⟩ := processPair_some hpp
  refine ⟨by rw [hord, hwit], ?_, hshape, solveEq_length hse⟩
  rw [hord]
  exact gcdKey_pos (solveEq_key_ne hse)

/-!
## Semantics of the modelled solver
-/

theorem aeval_evalTerm (t : Term2) (pt : List Aff) (r : ℚ) :
    (evalTerm t pt).aeval r = tval t (evalPt pt r) := by
  simp only [evalTerm, evalPt, Aff.aeval, tval]
  ring

theorem solveEq_tie {a b : Term2} {pt : List Aff}
    (h : solveEq a b = some pt) (r : ℚ) :
    tval a (evalPt pt r) = tval b (evalPt pt r) := by
  simp only [solveEq] at h
  split at h
  · next h1 =>
    simp only [Option.some.injEq] at h
    subst h
    simp only [tval, evalPt, List.getD_cons_zero, List.getD_cons_succ]
    field_simp
    ring
  · split at h
    · next h1 h2 =>
      simp only [Option.some.injEq] at h
      subst h
      simp only [tval, evalPt, List.getD_cons_zero, List.getD_cons_succ]
      have he1 : (a.e1 : ℚ) = (b.e1 : ℚ) := by
        by_contra hne
        exact h1 (sub_ne_zero.mpr hne)
      field_simp
      rw [he1]
      ring
    · exact absurd h (by simp)

theorem halfLineSolve_none {z w : ℚ} (h : halfLineSolve z w = none)
    (r : ℚ) : z * r + w ≤ 0 := by
  unfold halfLineSolve at h
  split at h
  · next hz =>
    split at h
    · exact absurd h (by simp)
    · next hw =>
      rw [hz, zero_mul, zero_add]
      linarith [not_lt.mp hw]
  · split at h <;> exact absurd h (by simp)

theorem halfLineSolve_trivial {z w : ℚ} (h : halfLineSolve z w = some none)
    (r : ℚ) : 0 < z * r + w := by
  unfold halfLineSolve at h
  split at h
  · next hz =>
    split at h
    · next hw =>
      rw [hz, zero_mul, zero_add]
      exact hw
    · exact absurd h (by simp)
  · split at h <;> exact absurd h (by simp)

theorem halfLineSolve_gtB {z w q : ℚ}
    (h : halfLineSolve z w = some (some (.gtB q))) :
    0 < z ∧ z * q + w = 0 ∧ ∀ r : ℚ, (0 < z * r + w ↔ q < r) := by
  unfold halfLineSolve at h
  split at h
  · split at h <;> exact absurd h (by simp)
  · next hz =>
    split at h
    · next hzpos =>
      simp only [Option.some.injEq, RawBound.gtB.injEq] at h
      subst h
      refine ⟨hzpos, by field_simp; ring, ?_⟩
      intro r
      rw [div_lt_iff₀ hzpos]
      constructor
      · intro hh; linarith
      · intro hh; linarith
    · exact absurd h (by simp)

theorem halfLineSolve_ltB {z w q : ℚ}
    (h : halfLineSolve z w = some (some (.ltB q))) :
    z < 0 ∧ z * q + w = 0 ∧ ∀ r : ℚ, (0 < z * r + w ↔ r < q) := by
  unfold halfLineSolve at h
  split at h
  · split at h <;> exact absurd h (by simp)
  · next hz =>
    split at h
    · exact absurd h (by simp)
    · next hzpos =>
      have hzneg : z < 0 := by
        rcases lt_or_gt_of_ne hz with hlt | hgt
        · exact hlt
        · exact absurd hgt hzpos
      simp only [Option.some.injEq, RawBound.ltB.injEq] at h
      subst h
      refine ⟨hzneg, by field_simp; ring, ?_⟩
      intro r
      rw [lt_div_iff_of_neg hzneg]
      constructor
      · intro hh; linarith
      · intro hh; linarith

theorem halfLineSolve_not_lowlt {z w q : ℚ} :
    halfLineSolve z w ≠ some (some (.lowltB q)) := by
  unfold halfLineSolve
  split
  · split <;> simp
  · split <;> simp

/-!
## The deduplication invariant

The dedup pass keeps, for each structurally distinct (parametrization,
constraint set), one component whose weight and witness come from a
maximal-weight candidate with that key.
-/

theorem insertComp_of_no_match {x : Comp} :
    ∀ {acc : List Comp}, (∀ d ∈ acc, ¬(d.pt = x.pt ∧ d.cons = x.cons)) →
      insertComp x acc = acc ++ [x]
  | [], _ => rfl
  | d :: ds, h => by
    unfold insertComp
    rw [if_neg (h d (List.mem_cons_self d ds))]
    rw [insertComp_of_no_match (fun e he => h e (List.mem_cons_of_mem d he))]
    rfl

theorem insertComp_of_first_match {x d : Comp} (q : List Comp) :
    ∀ (p : List Comp), (∀ e ∈ p, ¬(e.pt = x.pt ∧ e.cons = x.cons)) →
      (d.pt = x.pt ∧ d.cons = x.cons) →
      insertComp x (p ++ d :: q) =
        p ++ (if d.ord < x.ord then
          { d with ord := x.ord, wit := x.wit } else d) :: q
  | [], _, hd => by
    rw [List.nil_append, List.nil_append]
    simp only [insertComp]
    rw [if_pos hd]
  | e :: p, hp, hd => by
    rw [List.cons_append]
    simp only [insertComp]
    rw [if_neg (hp e (List.mem_cons_self e p))]
    rw [insertComp_of_first_match q p
      (fun f hf => hp f (List.mem_cons_of_mem e hf)) hd]
    rfl

theorem exists_first_match {x : Comp} :
    ∀ {acc : List Comp}, (∃ d ∈ acc, d.pt = x.pt ∧ d.cons = x.cons) →
      ∃ p d q, acc = p ++ d :: q ∧
        (∀ e ∈ p, ¬(e.pt = x.pt ∧ e.cons = x.cons)) ∧
        (d.pt = x.pt ∧ d.cons = x.cons)
  | [], h => by simp at h
  | d :: ds, h => by
    by_cases hd : d.pt = x.pt ∧ d.cons = x.cons
    · exact ⟨[], d, ds, rfl, by simp, hd⟩
    · have : ∃ e ∈ ds, e.pt = x.pt ∧ e.cons = x.cons := by
        obtain ⟨e, he, hee⟩ := h
        rcases List.mem_cons.mp he with rfl | hmem
        · exact absurd hee hd
        · exact ⟨e, hmem, hee⟩
      obtain ⟨p, e, q, rfl, hp, he⟩ := exists_first_match this
      exact ⟨d :: p, e, q, rfl, by
        intro f hf
        rcases List.mem_cons.mp hf with rfl | hmem
        · exact hd
        · exact hp f hmem, he⟩

theorem dedupInv_insert {src acc : List Comp} (x : Comp)
    (h : DedupInv src acc) : DedupInv (src ++ [x]) (insertComp x acc) := by
  by_cases hm : ∃ d ∈ acc, d.pt = x.pt ∧ d.cons = x.cons
  · obtain ⟨p, d, q, rfl, hp, hd⟩ := exists_first_match hm
    rw [insertComp_of_first_match q p hp hd]
    set d' := if d.ord < x.ord then
      { d with ord := x.ord, wit := x.wit } else d with hd'
    have hd'pt : d'.pt = d.pt := by
      rw [hd']; split <;> rfl
    have hd'cons : d'.cons = d.cons := by
      rw [hd']; split <;> rfl
    have hd'ord : d'.ord = max d.ord x.ord := by
      rw [hd']; split
      · simp only [Nat.max_eq_right (Nat.le_of_lt (by assumption))]
      · simp only [Nat.max_eq_left (Nat.le_of_not_lt (by assumption))]
    have hmemd : d ∈ p ++ d :: q := by simp
    constructor
    · intro c hc
      rcases List.mem_append.mp hc with hcp | hcq
      · obtain ⟨e, he, hee⟩ := h.origin c (by simp [hcp])
        exact ⟨e, by simp [he], hee⟩
      rcases List.mem_cons.mp hcq with rfl | hcq
      · rw [hd']
        split
        · exact ⟨x, by simp, hd.1.symm, hd.2.symm, rfl, rfl⟩
        · obtain ⟨e, he, hee⟩ := h.origin d hmemd
          exact ⟨e, by simp [he], hee⟩
      · obtain ⟨e, he, hee⟩ := h.origin c (by simp [hcq])
        exact ⟨e, by simp [he], hee⟩
    · intro c hc e he hept hecons
      rcases List.mem_append.mp he with hesrc | hex
      · -- e is an old candidate
        rcases List.mem_append.mp hc with hcp | hcq
        · exact h.maxOrd c (by simp [hcp]) e hesrc hept hecons
        rcases List.mem_cons.mp hcq with rfl | hcq
        · calc e.ord ≤ d.ord :=
                h.maxOrd d hmemd e hesrc (by rw [hept, hd'pt])
                  (by rw [hecons, hd'cons])
            _ ≤ d'.ord := by rw [hd'ord]; exact Nat.le_max_left _ _
        · exact h.maxOrd c (by simp [hcq]) e hesrc hept hecons
      · -- e = x
        have hex : e = x := by simpa using hex
        subst hex
        rcases List.mem_append.mp hc with hcp | hcq
        · -- c in the prefix: c and d share x's key, contradicting
          -- pairwise distinctness
          exfalso
          have hcd : ¬(c.pt = d.pt ∧ c.cons = d.cons) := by
            have := h.distinct
            rw [List.pairwise_append] at this
            exact this.2.2 c hcp d (List.mem_cons_self d q)
          exact hcd ⟨by rw [← hept, hd.1], by rw [← hecons, hd.2]⟩
        rcases List.mem_cons.mp hcq with rfl | hcq
        · rw [hd'ord]; exact Nat.le_max_right _ _
        · exfalso
          have hcd : ¬(d.pt = c.pt ∧ d.cons = c.cons) := by
            have := h.distinct
            rw [List.pairwise_append] at this
            have hpair := this.2.1
            rw [List.pairwise_cons] at hpair
            exact hpair.1 c hcq
          exact hcd ⟨by rw [hd.1, ← hept], by rw [hd.2, ← hecons]⟩
    · intro e he
      rcases List.mem_append.mp he with hesrc | hex
      · obtain ⟨c, hc, hcc⟩ := h.complete e hesrc
        rcases List.mem_append.mp hc with hcp | hcq
        · exact ⟨c, by simp [hcp], hcc⟩
        rcases List.mem_cons.mp hcq with rfl | hcq
        · exact ⟨d', by simp, by rw [hd'pt, hcc.1], by rw [hd'cons, hcc.2]⟩
        · exact ⟨c, by simp [hcq], hcc⟩
      · have hex : e = x := by simpa using hex
        subst hex
        exact ⟨d', by simp, by rw [hd'pt, hd.1], by rw [hd'cons, hd.2]⟩
    · have := h.distinct
      rw [List.pairwise_append] at this ⊢
      refine ⟨this.1, ?_, ?_⟩
      · rw [List.pairwise_cons] at this ⊢
        constructor
        · intro c hc hcc
          exact (this.2.1.1 c hc) ⟨by rw [← hd'pt, hcc.1], by
            rw [← hd'cons, hcc.2]⟩
        · exact this.2.1.2
      · intro c hc e he
        have := this.2.2 c hc
        rcases List.mem_cons.mp he with rfl | he'
        · intro hcc
          exact (this d (List.mem_cons_self d q))
            ⟨by rw [hcc.1, hd'pt], by rw [hcc.2, hd'cons]⟩
        · exact this e (List.mem_cons_of_mem d he')
  · push_neg at hm
    rw [insertComp_of_no_match (fun d hd => by
      intro hc; exact (hm d hd hc.1) hc.2)]
    constructor
    · intro c hc
      rcases List.mem_append.mp hc with hca | hcx
      · obtain ⟨e, he, hee⟩ := h.origin c hca
        exact ⟨e, by simp [he], hee⟩
      · have hcx : c = x := by simpa using hcx
        subst hcx
        exact ⟨c, by simp, rfl, rfl, rfl, rfl⟩
    · intro c hc e he hept hecons
      rcases List.mem_append.mp hc with hca | hcx
      · rcases List.mem_append.mp he with hesrc | hex
        · exact h.maxOrd c hca e hesrc hept hecons
        · exfalso
          have hex : e = x := by simpa using hex
          subst hex
          exact (hm c hca (by rw [hept])) (by rw [hecons])
      · have hcx : c = x := by simpa using hcx
        subst hcx
        rcases List.mem_append.mp he with hesrc | hex
        · exfalso
          obtain ⟨c0, hc0, hcc0⟩ := h.complete e hesrc
          exact (hm c0 hc0 (by rw [hcc0.1, hept])) (by rw [hcc0.2, hecons])
        · have hex : e = c := by simpa using hex
          subst hex
          exact Nat.le_refl _
    · intro e he
      rcases List.mem_append.mp he with hesrc | hex
      · obtain ⟨c, hc, hcc⟩ := h.complete e hesrc
        exact ⟨c, by simp [hc], hcc⟩
      · have hex : e = x := by simpa using hex
        subst hex
        exact ⟨e, by simp, rfl, rfl⟩
    · rw [List.pairwise_append]
      refine ⟨h.distinct, by simp, ?_⟩
      intro c hc e he
      have hex : e = x := by simpa using he
      subst hex
      intro hcc
      exact (hm c hc hcc.1) hcc.2

theorem dedupInv_foldl :
    ∀ (l : List Comp) {src acc : List Comp}, DedupInv src acc →
      DedupInv (src ++ l)
        (l.foldl (fun a c => insertComp c a) acc)
  | [], src, acc, h => by simpa using h
  | x :: l, src, acc, h => by
    have step := dedupInv_insert x h
    have := dedupInv_foldl l step
    rw [List.append_assoc] at this
    simpa using this

theorem dedup_inv (l : List Comp) : DedupInv l (dedup l) := by
  have base : DedupInv [] [] :=
    ⟨by simp, by simp, by simp, List.Pairwise.nil⟩
  have := dedupInv_foldl l base
  simpa [dedup] using this

/-- Every component of the constructed two-variable hypersurface carries
the data of some surviving candidate with the same key, of maximal
weight among the candidates with that key. -/
theorem mem_hypersurface {m : Bool} {p : List Term2} {c : Comp}
    (h : c ∈ (buildTV m p).hypersurface) :
    (∃ d ∈ candidates m p,
        d.pt = c.pt ∧ d.cons = c.cons ∧ d.wit = c.wit ∧ d.ord = c.ord) ∧
      ∀ d ∈ candidates m p, d.pt = c.pt → d.cons = c.cons →
        d.ord ≤ c.ord := by
  unfold buildTV at h
  split at h
  · simp at h
  · exact ⟨(dedup_inv (candidates m p)).origin c h,
      (dedup_inv (candidates m p)).maxOrd c h⟩

/-- The constraint-list shape, parametric-point length, weight value and
weight positivity transfer from candidates to finalized components. -/
theorem hypersurface_shape {m : Bool} {p : List Term2} {c : Comp}
    (h : c ∈ (buildTV m p).hypersurface) :
    ConsShape c.cons ∧ c.pt.length = 2 ∧ 0 < c.ord ∧
      c.ord = gcdKey c.wit.1 c.wit.2 := by
  obtain ⟨⟨d, hd, hpt, hcons, hwit, hord⟩, _⟩ := mem_hypersurface h
  obtain ⟨dord, dpos, dshape, dlen⟩ := candidates_ord hd
  exact ⟨hcons ▸ dshape, hpt ▸ dlen, hord ▸ dpos,
    by rw [← hord, ← hwit, dord]⟩

/-!
## Origin lemma for the three-variable deduplication
-/

theorem insertComp3_mem {x : Comp3} :
    ∀ {acc : List Comp3} {c : Comp3}, c ∈ insertComp3 x acc →
      c ∈ acc ∨
        (c.pt = x.pt ∧ c.cons = x.cons ∧ c.wit = x.wit ∧ c.ord = x.ord)
  | [], c, h => by
    right
    have : c = x := by simpa [insertComp3] using h
    subst this
    exact ⟨rfl, rfl, rfl, rfl⟩
  | d :: ds, c, h => by
    simp only [insertComp3] at h
    by_cases hcond : d.pt = x.pt ∧ d.cons = x.cons
    · rw [if_pos hcond] at h
      rcases List.mem_cons.mp h with rfl | hmem
      · by_cases hlt : d.ord < x.ord
        · rw [if_pos hlt]
          right
          exact ⟨hcond.1, hcond.2, rfl, rfl⟩
        · rw [if_neg hlt]
          exact Or.inl (List.mem_cons_self _ _)
      · exact Or.inl (List.mem_cons_of_mem d hmem)
    · rw [if_neg hcond] at h
      rcases List.mem_cons.mp h with rfl | hmem
      · exact Or.inl (List.mem_cons_self _ _)
      · rcases insertComp3_mem hmem with hm | hx
        · exact Or.inl (List.mem_cons_of_mem d hm)
        · exact Or.inr hx

theorem dedup3_foldl_origin :
    ∀ (l : List Comp3) {src acc : List Comp3},
      (∀ c ∈ acc, ∃ d ∈ src,
        d.pt = c.pt ∧ d.cons = c.cons ∧ d.wit = c.wit ∧ d.ord = c.ord) →
      ∀ c ∈ l.foldl (fun a c => insertComp3 c a) acc, ∃ d ∈ src ++ l,
        d.pt = c.pt ∧ d.cons = c.cons ∧ d.wit = c.wit ∧ d.ord = c.ord
  | [], src, acc, hacc, c, hc => by
    obtain ⟨d, hd, hh⟩ := hacc c hc
    exact ⟨d, by simp [hd], hh⟩
  | x :: l, src, acc, hacc, c, hc => by
    have hstep : ∀ c ∈ insertComp3 x acc, ∃ d ∈ src ++ [x],
        d.pt = c.pt ∧ d.cons = c.cons ∧ d.wit = c.wit ∧ d.ord = c.ord := by
      intro c hc
      rcases insertComp3_mem hc with hm | hx
      · obtain ⟨d, hd, hh⟩ := hacc c hm
        exact ⟨d, by simp [hd], hh⟩
      · exact ⟨x, by simp, hx.1.symm, hx.2.1.symm, hx.2.2.1.symm,
          hx.2.2.2.symm⟩
    have := dedup3_foldl_origin l hstep c hc
    rw [List.append_assoc] at this
    simpa using this

theorem dedup3_origin {l : List Comp3} {c : Comp3} (h : c ∈ dedup3 l) :
    ∃ d ∈ l, d.pt = c.pt ∧ d.cons = c.cons ∧ d.wit = c.wit ∧
      d.ord = c.ord := by
  have := @dedup3_foldl_origin l [] [] (by simp) c
    (by simpa [dedup3] using h)
  simpa using this

/-- The constraint list of a surviving three-variable candidate: the
explicitly-unbounded form for every parameter, or a nonempty list of
finite solver constraints. -/
theorem processPair3_cons {m : Bool} {p : List Term3} {a b : Term3}
    {pt : List Aff2} {cs : List Constr3}
    (h : processPair3 m p a b = some (pt, cs)) :
    ∃ js, (cs = canonize3 js ∧ pt.length = 3) := by
  simp only [processPair3] at h
  rcases he : solveEq3 a b with _ | pt'
  · rw [he] at h; simp at h
  · rw [he] at h
    dsimp only at h
    have hlen : pt'.length = 3 := by
      simp only [solveEq3] at he
      split at he
      · simp only [Option.some.injEq] at he; subst he; rfl
      · split at he
        · simp only [Option.some.injEq] at he; subst he; rfl
        · split at he
          · simp only [Option.some.injEq] at he; subst he; rfl
          · exact absurd he (by simp)
    rcases hc : collectBounds3 m (evalTerm3 a pt') pt'
        (p.filter (fun t => t.key ≠ a.key ∧ t.key ≠ b.key)) with _ | bs
    · rw [hc] at h; simp at h
    · rw [hc] at h
      dsimp only at h
      rcases hj : jointSolve3 bs with _ | js
      · rw [hj] at h; simp at h
      · rw [hj] at h
        dsimp only at h
        split at h
        · simp only [Option.some.injEq, Prod.mk.injEq] at h
          refine ⟨js.map swapJC, h.2.symm, ?_⟩
          rw [← h.1, List.length_map, hlen]
        · simp only [Option.some.injEq, Prod.mk.injEq] at h
          refine ⟨js, h.2.symm, by rw [← h.1, hlen]⟩

/-- `canonize3` yields either the explicit unbounded constraints for both
parameters or a nonempty list free of infinity constraints. -/
theorem canonize3_shape (js : List JC) :
    canonize3 js = [.negInfC3 0, .posInfC3 0, .negInfC3 1, .posInfC3 1] ∨
      (canonize3 js ≠ [] ∧ ∀ k ∈ canonize3 js, ∀ v,
        k ≠ .negInfC3 v ∧ k ≠ .posInfC3 v) := by
  unfold canonize3
  split
  · exact Or.inl rfl
  · right
    constructor
    · simp only [ne_eq, List.map_eq_nil_iff]
      assumption
    · intro k hk v
      rw [List.mem_map] at hk
      obtain ⟨j, _, rfl⟩ := hk
      unfold canonJ
      rcases j with q | q | q | b
      · exact ⟨by simp, by simp⟩
      · exact ⟨by simp, by simp⟩
      · exact ⟨by simp, by simp⟩
      · dsimp only
        split <;> exact ⟨by simp, by simp⟩

/-!
## Helper facts for the curve methods on a nonempty hypersurface
-/

theorem vectorsOfVertices_ok {tv : TropicalVariety}
    (h : tv.hypersurface ≠ []) :
    vectorsOfVertices tv = .ok (incidenceVectors tv) := by
  unfold vectorsOfVertices
  rcases he : tv.hypersurface with _ | ⟨c, cs⟩
  · exact absurd he h
  · rfl

theorem simpleCheck_eq_false_iff (vv : List ((ℚ × ℚ) × List (ℚ × ℚ))) :
    simpleCheck vv = false ↔ BadVertex vv := by
  unfold simpleCheck BadVertex
  rw [List.all_eq_false]
  constructor
  · rintro ⟨kl, hkl, hbad⟩
    refine ⟨kl, hkl, ?_⟩
    by_cases h4 : 4 < kl.2.length
    · exact Or.inl h4
    · rw [if_neg h4] at hbad
      by_cases he : kl.2.length = 4
      · rw [if_pos he] at hbad
        refine Or.inr ⟨he, ?_⟩
        rw [Bool.not_eq_true, List.all_eq_false] at hbad
        obtain ⟨v, hv, hvv⟩ := hbad
        refine ⟨v, hv, fun hmem => hvv ?_⟩
        simpa using hmem
      · rw [if_neg he] at hbad
        exact absurd rfl hbad
  · rintro ⟨kl, hkl, hbad⟩
    refine ⟨kl, hkl, ?_⟩
    rcases hbad with h4 | ⟨he, v, hv, hvneg⟩
    · rw [if_pos h4]
      simp
    · rw [if_neg (by omega), if_pos he]
      rw [Bool.not_eq_true, List.all_eq_false]
      exact ⟨v, hv, fun hc => hvneg (by simpa using hc)⟩

/-!
## Claim C1
-/

/-- C1: constructing the tropical variety of the 2-variable max-convention
polynomial with terms `{(): 0, (1,0): 1, (1,1): 0}` over the rationals
yields exactly three components — `(t, 1)` with `t1 >= -1` and weight 1,
`(-1, t)` with `t1 <= 1` and weight 1, and `(-t, t)` with `t1 >= 1` and
weight 1 — and `vertices()` returns exactly the single point `(-1, 1)`. -/
theorem c1_concrete_scenario :
    (buildTV false exPoly).hypersurface =
      [⟨[⟨1, 0⟩, ⟨0, 1⟩], [.geC (-1)], ((1, 0), (1, 1)), 1⟩,
       ⟨[⟨0, -1⟩, ⟨1, 0⟩], [.leC 1], ((1, 0), (0, 0)), 1⟩,
       ⟨[⟨-1, 0⟩, ⟨1, 0⟩], [.geC 1], ((1, 1), (0, 0)), 1⟩] ∧
    vertices (buildTV false exPoly) = .ok [(-1, 1)] := by decide

/-!
## Claim C3
-/

/-- C3: for every constructed tropical variety, every component's weight is
a positive integer equal to the gcd of the coordinate-wise absolute
exponent differences of its witnessing pair of terms; the component's data
originates in a surviving candidate with the same (parametrization,
constraint set), and after deduplication the weight is maximal among all
witnessing candidates that canonicalize to that same component. -/
theorem c3_weight_gcd_max (m : Bool) (p : List Term2) (c : Comp)
    (h : c ∈ (buildTV m p).hypersurface) :
    (0 < c.ord ∧ c.ord = gcdKey c.wit.1 c.wit.2) ∧
      (∃ d ∈ candidates m p,
        d.pt = c.pt ∧ d.cons = c.cons ∧ d.wit = c.wit ∧ d.ord = c.ord) ∧
      (∀ d ∈ candidates m p, d.pt = c.pt → d.cons = c.cons →
        d.ord ≤ c.ord) := by
  obtain ⟨horig, hmax⟩ := mem_hypersurface h
  obtain ⟨_, _, hpos, hgcd⟩ := hypersurface_shape h
  exact ⟨⟨hpos, hgcd⟩, horig, hmax⟩

theorem c3_weight_gcd_max_witness :
    (0 < c3ExComp.ord ∧
        c3ExComp.ord = gcdKey c3ExComp.wit.1 c3ExComp.wit.2) ∧
      (∃ d ∈ candidates false exPoly, d.pt = c3ExComp.pt ∧
        d.cons = c3ExComp.cons ∧ d.wit = c3ExComp.wit ∧
        d.ord = c3ExComp.ord) ∧
      (∀ d ∈ candidates false exPoly, d.pt = c3ExComp.pt →
        d.cons = c3ExComp.cons → d.ord ≤ c3ExComp.ord) :=
  c3_weight_gcd_max false exPoly c3ExComp (by decide)

/-!
## Claim C4
-/

/-- C4, counterexample: on the single-term polynomial `0*x` the curve has
no components and no vertices at all — so it is simple in the claim's
sense — yet `genus()` does not return a value: it fails with the
`IndexError` of `self._hypersurface[0]`, not with a domain error. -/
theorem c4_counterexample :
    genus (buildTV false [⟨1, 0, 0⟩]) = .err .indexErr ∧
      incidenceVectors (buildTV false [⟨1, 0, 0⟩]) = [] ∧
      (PyRes.err .indexErr ≠ (PyRes.err .valueErr : PyRes ℤ)) ∧
      (∀ z : ℤ, PyRes.err PyErr.indexErr ≠ PyRes.ok z) := by
  refine ⟨by decide, by decide, by decide, ?_⟩
  intro z h
  exact PyRes.noConfusion h

/-- C4, amended: on every curve with at least one component, `genus()`
reports the domain error (`ValueError`) exactly when some vertex has more
than 4 incident vectors or exactly 4 that are not symmetric under
negation, and otherwise returns a value; on a zero-component curve
`genus()` instead fails with an index error (see the counterexample). -/
theorem c4_genus_error_iff (m : Bool) (p : List Term2)
    (h : (buildTV m p).hypersurface ≠ []) :
    (genus (buildTV m p) = .err .valueErr ↔
      BadVertex (incidenceVectors (buildTV m p))) ∧
    (¬ BadVertex (incidenceVectors (buildTV m p)) →
      ∃ z : ℤ, genus (buildTV m p) = .ok z) := by
  have hvv := vectorsOfVertices_ok h
  have hiff := simpleCheck_eq_false_iff (incidenceVectors (buildTV m p))
  rcases hsc : simpleCheck (incidenceVectors (buildTV m p)) with _ | _
  · have hbad : BadVertex (incidenceVectors (buildTV m p)) := hiff.mp hsc
    have hg : genus (buildTV m p) = .err .valueErr := by
      unfold genus isSimple
      rw [hvv]
      dsimp only
      rw [hsc]
    refine ⟨?_, fun hb => absurd hbad hb⟩
    rw [hg]
    exact ⟨fun _ => hbad, fun _ => rfl⟩
  · have hbad : ¬ BadVertex (incidenceVectors (buildTV m p)) := by
      intro hb
      have hf := hiff.mpr hb
      rw [hsc] at hf
      exact absurd hf (by simp)
    have hg : genus (buildTV m p) =
        .ok ((trivalentCount (buildTV m p) : ℤ) / 2 -
          (oneConstraintCount (buildTV m p) : ℤ) / 2 + 1) := by
      unfold genus isSimple
      rw [hvv]
      dsimp only
      rw [hsc]
    constructor
    · rw [hg]
      exact ⟨fun hh => absurd hh (by simp), fun hb => absurd hb hbad⟩
    · intro _
      rw [hg]
      exact ⟨_, rfl⟩

theorem c4_genus_error_iff_witness :
    ((buildTV false exPoly).hypersurface ≠ []) ∧
      ((genus (buildTV false exPoly) = .err .valueErr ↔
        BadVertex (incidenceVectors (buildTV false exPoly))) ∧
      (¬ BadVertex (incidenceVectors (buildTV false exPoly)) →
        ∃ z : ℤ, genus (buildTV false exPoly) = .ok z)) :=
  ⟨by decide, c4_genus_error_iff false exPoly (by decide)⟩

/-!
## Claim C5
-/

theorem consShape_oneConstraint_iff {cs : List Constr} (h : ConsShape cs) :
    cs.length = 1 ↔
      (((interval cs).1 = none) ≠ ((interval cs).2 = none)) := by
  rcases h with ⟨q, rfl⟩ | ⟨q, rfl⟩ | ⟨l, u, rfl, _⟩ | rfl <;>
    simp [interval, Constr.leftVal, Constr.rightVal]

theorem oneConstraintCount_eq_halfLineCount (m : Bool) (p : List Term2) :
    oneConstraintCount (buildTV m p) = halfLineCount (buildTV m p) := by
  unfold oneConstraintCount halfLineCount
  refine congrArg List.length (List.filter_congr ?_)
  intro c hc
  have hsh := (hypersurface_shape hc).1
  exact decide_eq_decide.mpr (consShape_oneConstraint_iff hsh)

/-- C5, counterexample: the max-convention curve of `0 + 0*x + (-5)*x^2` is
two full vertical lines; it is simple and `genus()` returns `1`, yet both
its components have a feasible interval unbounded on both sides, so the
claim's formula `0 // 2 - 2 // 2 + 1` gives `0`: components whose interval
is all of the reals are not counted by the code. -/
theorem c5_counterexample :
    genus (buildTV false exColl) = .ok 1 ∧
      isSimple (buildTV false exColl) = .ok true ∧
      trivalentCount (buildTV false exColl) = 0 ∧
      unboundedIntervalCount (buildTV false exColl) = 2 ∧
      ((0 : ℤ) / 2 - (2 : ℤ) / 2 + 1 = 0) ∧ (1 : ℤ) ≠ 0 := by decide

/-- C5, amended: for every 2-variable tropical polynomial whose curve is
simple, `genus()` returns `(#trivalent vertices) // 2 - U // 2 + 1` with
integer floor division, where `U` counts the components whose feasible
interval is unbounded on exactly one side (half-lines, equivalently one
constraint in the component's constraint list); components whose interval
is all of the reals carry two explicit unbounded constraints and are not
counted. -/
theorem c5_genus_formula (m : Bool) (p : List Term2)
    (h : isSimple (buildTV m p) = .ok true) :
    genus (buildTV m p) =
      .ok ((trivalentCount (buildTV m p) : ℤ) / 2 -
        (halfLineCount (buildTV m p) : ℤ) / 2 + 1) := by
  have hcount := oneConstraintCount_eq_halfLineCount m p
  unfold genus
  rw [h]
  dsimp only
  rw [hcount]

theorem c5_genus_formula_witness :
    isSimple (buildTV false exPoly) = .ok true ∧
      genus (buildTV false exPoly) =
        .ok ((trivalentCount (buildTV false exPoly) : ℤ) / 2 -
          (halfLineCount (buildTV false exPoly) : ℤ) / 2 + 1) :=
  ⟨by decide, c5_genus_formula false exPoly (by decide)⟩

/-!
## Claim C7
-/

/-- The convention flip at the level of one half-line solve: negating the
affine difference (the effect of switching the convention) swaps
infeasible with trivially-true and a lower bound with the upper bound at
the same boundary value. -/
theorem halfLineSolve_neg (z w : ℚ) (h : ¬(z = 0 ∧ w = 0)) :
    halfLineSolve (-z) (-w) = flipB (halfLineSolve z w) := by
  unfold halfLineSolve
  by_cases hz : z = 0
  · rw [if_pos hz, if_pos (by rw [hz, neg_zero])]
    have hw : w ≠ 0 := fun hw0 => h ⟨hz, hw0⟩
    by_cases hwpos : 0 < w
    · rw [if_pos hwpos, if_neg (by linarith)]
      rfl
    · have hwneg : 0 < -w := by
        rcases lt_or_gt_of_ne hw with hlt | hgt
        · linarith
        · exact absurd hgt hwpos
      rw [if_pos hwneg, if_neg hwpos]
      rfl
  · rw [if_neg hz, if_neg (by simpa using hz)]
    by_cases hzpos : 0 < z
    · rw [if_pos hzpos, if_neg (by linarith)]
      simp only [flipB, Option.some.injEq, RawBound.ltB.injEq]
      rw [neg_neg, div_neg, neg_div]
    · have hzneg : 0 < -z := by
        rcases lt_or_gt_of_ne hz with hlt | hgt
        · linarith
        · exact absurd hgt hzpos
      rw [if_neg hzpos, if_pos hzneg]
      simp only [flipB, Option.some.injEq, RawBound.gtB.injEq]
      rw [neg_neg, div_neg, neg_div]

/-- C7, counterexample: on `0 + 0*x + (-5)*x^2` the max-convention variety
has two components while the min-convention variety has one, with
different parametric points — the two conventions do not yield identical
parametrizations with merely flipped constraints, because a pair's
feasible region under one convention can be empty under the other. -/
theorem c7_counterexample :
    numberOfComponents (buildTV false exColl) = 2 ∧
      numberOfComponents (buildTV true exColl) = 1 ∧
      (buildTV false exColl).hypersurface.map Comp.pt ≠
        (buildTV true exColl).hypersurface.map Comp.pt := by decide

/-- C7, amended: the candidate parametrization of a pair and its weight do
not depend on the convention (the equality solve takes no convention
flag), and each individual dominance comparison flips: under min the
solver returns exactly the convention flip of the max result (lower and
upper bounds swap with the same boundary, trivially-true and infeasible
swap).  The surviving component lists therefore agree up to flipping
`>=`/`<=` only when the same pairs remain feasible under both
conventions, as they do on the polynomial of the concrete scenario; in
general the lists differ (see the counterexample). -/
theorem c7_convention_symmetry :
    (∀ mm cv : Aff, mm ≠ cv →
      solveIneq true mm cv = flipB (solveIneq false mm cv)) ∧
    (buildTV true exPoly).hypersurface =
      (buildTV false exPoly).hypersurface.map
        (fun c => { c with cons := c.cons.map flipConstr }) := by
  constructor
  · intro mm cv hne
    show halfLineSolve (cv.sl - mm.sl) (cv.ct - mm.ct) =
      flipB (halfLineSolve (mm.sl - cv.sl) (mm.ct - cv.ct))
    rw [(by ring : cv.sl - mm.sl = -(mm.sl - cv.sl)),
      (by ring : cv.ct - mm.ct = -(mm.ct - cv.ct))]
    apply halfLineSolve_neg
    rintro ⟨hz, hw⟩
    apply hne
    have h1 : mm.sl = cv.sl := sub_eq_zero.mp hz
    have h2 : mm.ct = cv.ct := sub_eq_zero.mp hw
    cases mm; cases cv
    simp_all
  · decide

theorem c7_convention_symmetry_witness :
    ((⟨1, 0⟩ : Aff) ≠ ⟨0, 0⟩) ∧
      solveIneq true ⟨1, 0⟩ ⟨0, 0⟩ = flipB (solveIneq false ⟨1, 0⟩ ⟨0, 0⟩) :=
  ⟨by decide, c7_convention_symmetry.1 ⟨1, 0⟩ ⟨0, 0⟩ (by decide)⟩

/-!
## Claim C8
-/

theorem mem_candidates3 {m : Bool} {p : List Term3} {c : Comp3}
    (h : c ∈ candidates3 m p) :
    ∃ a b, processPair3 m p a b = some (c.pt, c.cons) := by
  unfold candidates3 at h
  rw [List.mem_filterMap] at h
  obtain ⟨ab, _, hmap⟩ := h
  rcases hp : processPair3 m p ab.1 ab.2 with _ | pc
  · rw [hp] at hmap; simp at hmap
  · rw [hp] at hmap
    simp only [Option.map_some', Option.some.injEq] at hmap
    exact ⟨ab.1, ab.2, by rw [hp, ← hmap]⟩

theorem hypersurface3_shape {m : Bool} {p : List Term3} {c : Comp3}
    (h : c ∈ (buildTV3 m p).hypersurface) :
    (∃ js, c.cons = canonize3 js) ∧ c.pt.length = 3 := by
  unfold buildTV3 at h
  split at h
  · simp at h
  · obtain ⟨d, hd, hpt, hcons, _, _⟩ := dedup3_origin h
    obtain ⟨a, b, hpp⟩ := mem_candidates3 hd
    obtain ⟨js, hjs, hlen⟩ := processPair3_cons hpp
    exact ⟨⟨js, by rw [← hcons, hjs]⟩, by rw [← hpt, hlen]⟩

/-- C8, counterexample: the max-convention variety of the three-variable
polynomial `x + y + 1` has a component `(t1, t1, t2)` whose constraint
list is `[t1 >= 0]`: the free parameter `t2` appears in no constraint at
all, so not every parameter receives an explicit (possibly trivial)
range. -/
theorem c8_counterexample :
    (buildTV3 false exPoly3).hypersurface =
      [⟨[⟨1, 0, 0⟩, ⟨1, 0, 0⟩, ⟨0, 1, 0⟩], [.geC3 0 0],
          ((1, 0, 0), (0, 1, 0)), 1⟩,
       ⟨[⟨0, 0, 0⟩, ⟨1, 0, 0⟩, ⟨0, 1, 0⟩], [.leC3 0 0],
          ((1, 0, 0), (0, 0, 0)), 1⟩,
       ⟨[⟨1, 0, 0⟩, ⟨0, 0, 0⟩, ⟨0, 1, 0⟩], [.leC3 0 0],
          ((0, 1, 0), (0, 0, 0)), 1⟩] ∧
      ((buildTV3 false exPoly3).hypersurface.getD 0 default).cons.all
        (fun k => ! mentionsParam 1 k) = true := by decide

/-- C8, amended: every finalized component's constraint set is nonempty;
a component whose solved joint condition is empty receives the explicit
unbounded constraints `-Infinity < t`, `t < +Infinity` for every
parameter, and otherwise the constraint set consists solely of the
solver's finite constraints — a parameter mentioned by none of them (as
happens for `n = 3`, see the counterexample) receives no explicit
range. -/
theorem c8_explicit_ranges :
    (∀ (m : Bool) (p : List Term2) (c : Comp),
      c ∈ (buildTV m p).hypersurface →
        c.cons ≠ [] ∧ (c.cons = [.negInfC, .posInfC] ∨
          ∀ k ∈ c.cons, k ≠ .negInfC ∧ k ≠ .posInfC)) ∧
    (∀ (m : Bool) (p : List Term3) (c : Comp3),
      c ∈ (buildTV3 m p).hypersurface →
        c.cons ≠ [] ∧
          (c.cons = [.negInfC3 0, .posInfC3 0, .negInfC3 1, .posInfC3 1] ∨
            ∀ k ∈ c.cons, ∀ v, k ≠ .negInfC3 v ∧ k ≠ .posInfC3 v)) := by
  constructor
  · intro m p c h
    have hsh := (hypersurface_shape h).1
    rcases hsh with ⟨q, hq⟩ | ⟨q, hq⟩ | ⟨l, u, hq, _⟩ | hq <;> rw [hq]
    · exact ⟨by simp, Or.inr (by simp)⟩
    · exact ⟨by simp, Or.inr (by simp)⟩
    · exact ⟨by simp, Or.inr (by simp)⟩
    · exact ⟨by simp, Or.inl rfl⟩
  · intro m p c h
    obtain ⟨⟨js, hjs⟩, _⟩ := hypersurface3_shape h
    rcases canonize3_shape js with hfull | ⟨hne, hfin⟩
    · rw [hjs, hfull]
      exact ⟨by simp, Or.inl rfl⟩
    · rw [hjs]
      exact ⟨hne, Or.inr hfin⟩

theorem c8_explicit_ranges_witness :
    (c3ExComp ∈ (buildTV false exPoly).hypersurface ∧
      (c3ExComp.cons ≠ [] ∧ (c3ExComp.cons = [.negInfC, .posInfC] ∨
        ∀ k ∈ c3ExComp.cons, k ≠ .negInfC ∧ k ≠ .posInfC))) ∧
    ((⟨[⟨1, 0, 0⟩, ⟨1, 0, 0⟩, ⟨0, 1, 0⟩], [.geC3 0 0],
        ((1, 0, 0), (0, 1, 0)), 1⟩ : Comp3) ∈
          (buildTV3 false exPoly3).hypersurface ∧
      ((⟨[⟨1, 0, 0⟩, ⟨1, 0, 0⟩, ⟨0, 1, 0⟩], [.geC3 0 0],
        ((1, 0, 0), (0, 1, 0)), 1⟩ : Comp3).cons ≠ [] ∧
        ((⟨[⟨1, 0, 0⟩, ⟨1, 0, 0⟩, ⟨0, 1, 0⟩], [.geC3 0 0],
          ((1, 0, 0), (0, 1, 0)), 1⟩ : Comp3).cons =
            [.negInfC3 0, .posInfC3 0, .negInfC3 1, .posInfC3 1] ∨
          ∀ k ∈ (⟨[⟨1, 0, 0⟩, ⟨1, 0, 0⟩, ⟨0, 1, 0⟩], [.geC3 0 0],
            ((1, 0, 0), (0, 1, 0)), 1⟩ : Comp3).cons, ∀ v,
              k ≠ .negInfC3 v ∧ k ≠ .posInfC3 v))) :=
  ⟨⟨by decide, c8_explicit_ranges.1 false exPoly c3ExComp (by decide)⟩,
   ⟨by decide, c8_explicit_ranges.2 false exPoly3 _ (by decide)⟩⟩

/-!
## Claim C9
-/

/-- C9: a valid single-term multivariate tropical polynomial constructs
without error, with `number_of_components() == 0` and an empty component
sequence; an input that is not a multivariate tropical polynomial makes
construction fail with the invalid-argument error (`ValueError`). -/
theorem c9_single_term_and_invalid_input :
    (∀ (m : Bool) (t : Term2),
      tropicalVarietyInit (.trop m [t]) = .ok ⟨[]⟩ ∧
        numberOfComponents (buildTV m [t]) = 0 ∧
        (buildTV m [t]).hypersurface = []) ∧
    (∀ s : String, tropicalVarietyInit (.nonPoly s) = .err .valueErr) := by
  constructor
  · intro m t
    refine ⟨?_, ?_, ?_⟩ <;> simp [tropicalVarietyInit, buildTV,
      numberOfComponents]
  · intro s
    rfl

/-!
## Claim C10
-/

/-- C10, counterexample: a single-term polynomial has zero components and
`dimension()` does not return the ambient variable count 2 — it fails
with the `IndexError` of `self._hypersurface[0][0]`. -/
theorem c10_counterexample :
    (buildTV false [⟨1, 1, 0⟩]).hypersurface = [] ∧
      dimension (buildTV false [⟨1, 1, 0⟩]) = .err .indexErr ∧
      (PyRes.err .indexErr ≠ (PyRes.ok 2 : PyRes ℕ)) := by decide

/-- C10, amended: whenever the constructed variety has at least one
component, `dimension()` returns the declared ambient variable count (2
for the two-variable pipeline, 3 for the three-variable pipeline) and
every component's parametric point has exactly that many coordinates; on
a zero-component variety `dimension()` fails with an index error (see the
counterexample). -/
theorem c10_dimension_ambient :
    (∀ (m : Bool) (p : List Term2), (buildTV m p).hypersurface ≠ [] →
      dimension (buildTV m p) = .ok 2) ∧
    (∀ (m : Bool) (p : List Term2) (c : Comp),
      c ∈ (buildTV m p).hypersurface → c.pt.length = 2) ∧
    (∀ (m : Bool) (p : List Term3), (buildTV3 m p).hypersurface ≠ [] →
      dimension3 (buildTV3 m p) = .ok 3) ∧
    (∀ (m : Bool) (p : List Term3) (c : Comp3),
      c ∈ (buildTV3 m p).hypersurface → c.pt.length = 3) := by
  refine ⟨?_, ?_, ?_, ?_⟩
  · intro m p h
    unfold dimension
    rcases he : (buildTV m p).hypersurface with _ | ⟨c, cs⟩
    · exact absurd he h
    · have hc : c ∈ (buildTV m p).hypersurface := by
        rw [he]; exact List.mem_cons_self c cs
      dsimp only
      rw [(hypersurface_shape hc).2.1]
  · intro m p c h
    exact (hypersurface_shape h).2.1
  · intro m p h
    unfold dimension3
    rcases he : (buildTV3 m p).hypersurface with _ | ⟨c, cs⟩
    · exact absurd he h
    · have hc : c ∈ (buildTV3 m p).hypersurface := by
        rw [he]; exact List.mem_cons_self c cs
      dsimp only
      rw [(hypersurface3_shape hc).2]
  · intro m p c h
    exact (hypersurface3_shape h).2

theorem c10_dimension_ambient_witness :
    ((buildTV false exPoly).hypersurface ≠ [] ∧
      dimension (buildTV false exPoly) = .ok 2) ∧
    ((buildTV3 false exPoly3).hypersurface ≠ [] ∧
      dimension3 (buildTV3 false exPoly3) = .ok 3) :=
  ⟨⟨by decide, c10_dimension_ambient.1 false exPoly (by decide)⟩,
   ⟨by decide, c10_dimension_ambient.2.2.1 false exPoly3 (by decide)⟩⟩

/-!
## Geometry of the parametrized lines
-/

theorem sgnQ_ne_zero (m : Bool) : sgnQ m ≠ 0 := by
  cases m <;> simp [sgnQ]

theorem solveIneq_halfLine (m : Bool) (mm cv : Aff) :
    solveIneq m mm cv =
      halfLineSolve (sgnQ m * (mm.sl - cv.sl)) (sgnQ m * (mm.ct - cv.ct)) := by
  cases m <;> simp only [solveIneq, sgnQ] <;> norm_num

theorem dq_lin (m : Bool) (a u : Term2) (pt : List Aff) (r : ℚ) :
    sgnQ m * ((evalTerm a pt).sl - (evalTerm u pt).sl) * r +
      sgnQ m * ((evalTerm a pt).ct - (evalTerm u pt).ct) = dq m a u pt r := by
  simp only [dq, Aff.aeval]
  ring

theorem dq_tval (m : Bool) (a u : Term2) (pt : List Aff) (r : ℚ) :
    dq m a u pt r =
      sgnQ m * (tval a (evalPt pt r) - tval u (evalPt pt r)) := by
  simp only [dq, aeval_evalTerm]

theorem Aff_eq_of {f g : Aff} {r : ℚ} (hsl : f.sl = g.sl)
    (hv : f.aeval r = g.aeval r) : f = g := by
  obtain ⟨fs, fc⟩ := f
  obtain ⟨gs, gc⟩ := g
  simp only [Aff.aeval] at hv
  simp only at hsl
  subst hsl
  simp only [Aff.mk.injEq, true_and]
  linarith

theorem solveEq_symm (a b : Term2) : solveEq b a = solveEq a b := by
  simp only [solveEq]
  by_cases h1 : (a.e1 : ℚ) - (b.e1 : ℚ) = 0
  · have h1' : ¬((b.e1 : ℚ) - (a.e1 : ℚ) ≠ 0) := by
      simp only [ne_eq, not_not]; linarith
    by_cases h2 : (a.e2 : ℚ) - (b.e2 : ℚ) = 0
    · have h2' : ¬((b.e2 : ℚ) - (a.e2 : ℚ) ≠ 0) := by
        simp only [ne_eq, not_not]; linarith
      rw [if_neg h1', if_neg h2', if_neg (by simpa using h1),
        if_neg (by simpa using h2)]
    · have h2' : (b.e2 : ℚ) - (a.e2 : ℚ) ≠ 0 := fun hc => h2 (by linarith)
      rw [if_neg h1', if_pos h2', if_neg (by simpa using h1), if_pos h2]
      have hv : -(b.cf - a.cf) / ((b.e2 : ℚ) - (a.e2 : ℚ)) =
          -(a.cf - b.cf) / ((a.e2 : ℚ) - (b.e2 : ℚ)) := by
        rw [neg_div, neg_div, neg_inj, div_eq_div_iff h2' h2]; ring
      rw [hv]
  · have h1' : (b.e1 : ℚ) - (a.e1 : ℚ) ≠ 0 := fun hc => h1 (by linarith)
    rw [if_pos h1', if_pos h1]
    have hv1 : -((b.e2 : ℚ) - (a.e2 : ℚ)) / ((b.e1 : ℚ) - (a.e1 : ℚ)) =
        -((a.e2 : ℚ) - (a.e2 : ℚ) + ((a.e2 : ℚ) - (b.e2 : ℚ))) /
          ((a.e1 : ℚ) - (b.e1 : ℚ)) := by
      rw [neg_div, neg_div, neg_inj, div_eq_div_iff h1' h1]; ring
    have hv1' : -((b.e2 : ℚ) - (a.e2 : ℚ)) / ((b.e1 : ℚ) - (a.e1 : ℚ)) =
        -((a.e2 : ℚ) - (b.e2 : ℚ)) / ((a.e1 : ℚ) - (b.e1 : ℚ)) := by
      rw [neg_div, neg_div, neg_inj, div_eq_div_iff h1' h1]; ring
    have hv2 : -(b.cf - a.cf) / ((b.e1 : ℚ) - (a.e1 : ℚ)) =
        -(a.cf - b.cf) / ((a.e1 : ℚ) - (b.e1 : ℚ)) := by
      rw [neg_div, neg_div, neg_inj, div_eq_div_iff h1' h1]; ring
    rw [hv1', hv2]

theorem evalTerm_sl (u : Term2) (pt : List Aff) :
    (evalTerm u pt).sl = (u.e1 : ℚ) * (dirOf pt).1 + (u.e2 : ℚ) * (dirOf pt).2 :=
  rfl

theorem solveEq_dir {a b : Term2} {pt : List Aff}
    (h : solveEq a b = some pt) :
    ((dirOf pt).1 ≠ 0 ∨ (dirOf pt).2 ≠ 0) ∧
      ((a.e1 : ℚ) - (b.e1 : ℚ)) * (dirOf pt).1 +
        ((a.e2 : ℚ) - (b.e2 : ℚ)) * (dirOf pt).2 = 0 := by
  simp only [solveEq] at h
  split at h
  · next h1 =>
    simp only [Option.some.injEq] at h
    subst h
    simp only [dirOf, List.getD_cons_zero, List.getD_cons_succ]
    refine ⟨Or.inr one_ne_zero, ?_⟩
    field_simp
  · split at h
    · next h1 h2 =>
      simp only [Option.some.injEq] at h
      subst h
      simp only [dirOf, List.getD_cons_zero, List.getD_cons_succ]
      refine ⟨Or.inl one_ne_zero, ?_⟩
      have h1' : (a.e1 : ℚ) - (b.e1 : ℚ) = 0 := by
        by_contra hc; exact h1 hc
      rw [h1']
      ring
    · exact absurd h (by simp)

theorem evalPt_fst (pt : List Aff) (r : ℚ) :
    evalPt pt r = ((pt.getD 0 ⟨0, 0⟩).sl * r + (pt.getD 0 ⟨0, 0⟩).ct,
      (pt.getD 1 ⟨0, 0⟩).sl * r + (pt.getD 1 ⟨0, 0⟩).ct) :=
  rfl

theorem evalPt_inj {a b : Term2} {pt : List Aff}
    (h : solveEq a b = some pt) {r r' : ℚ}
    (he : evalPt pt r = evalPt pt r') : r = r' := by
  simp only [solveEq] at h
  split at h
  · simp only [Option.some.injEq] at h
    subst h
    simp only [evalPt, List.getD_cons_zero, List.getD_cons_succ,
      Prod.mk.injEq] at he
    obtain ⟨-, he2⟩ := he
    linarith
  · split at h
    · simp only [Option.some.injEq] at h
      subst h
      simp only [evalPt, List.getD_cons_zero, List.getD_cons_succ,
        Prod.mk.injEq] at he
      obtain ⟨he1, -⟩ := he
      linarith
    · exact absurd h (by simp)

theorem solveEq_complete {a b : Term2} {pt : List Aff}
    (h : solveEq a b = some pt) {Q : ℚ × ℚ}
    (ht : tval a Q = tval b Q) : ∃ r, evalPt pt r = Q := by
  obtain ⟨q1, q2⟩ := Q
  simp only [tval] at ht
  simp only [solveEq] at h
  split at h
  · next h1 =>
    simp only [Option.some.injEq] at h
    subst h
    refine ⟨q2, ?_⟩
    simp only [evalPt, List.getD_cons_zero, List.getD_cons_succ, Prod.mk.injEq]
    refine ⟨?_, by ring⟩
    field_simp
    linarith
  · split at h
    · next h1 h2 =>
      simp only [Option.some.injEq] at h
      subst h
      have h1' : (a.e1 : ℚ) - (b.e1 : ℚ) = 0 := by
        by_contra hc; exact h1 hc
      refine ⟨q1, ?_⟩
      simp only [evalPt, List.getD_cons_zero, List.getD_cons_succ,
        Prod.mk.injEq]
      refine ⟨by ring, ?_⟩
      have hq1 : (a.e1 : ℚ) * q1 = (b.e1 : ℚ) * q1 := by
        have h'' : (a.e1 : ℚ) = (b.e1 : ℚ) := by linarith
        rw [h'']
      rw [zero_mul, zero_add, div_eq_iff h2]
      linarith
    · exact absurd h (by simp)

theorem solveEq_parallel {a b s t : Term2} {pt : List Aff} {lam : ℚ}
    (h : solveEq a b = some pt) (hlam : lam ≠ 0)
    (h1 : (s.e1 : ℚ) - (t.e1 : ℚ) = lam * ((a.e1 : ℚ) - (b.e1 : ℚ)))
    (h2 : (s.e2 : ℚ) - (t.e2 : ℚ) = lam * ((a.e2 : ℚ) - (b.e2 : ℚ)))
    (hc : s.cf - t.cf = lam * (a.cf - b.cf)) :
    solveEq s t = some pt := by
  simp only [solveEq] at h ⊢
  split at h
  · next hd1 =>
    simp only [Option.some.injEq] at h
    have hd1' : (s.e1 : ℚ) - (t.e1 : ℚ) ≠ 0 := by
      rw [h1]; exact mul_ne_zero hlam hd1
    rw [if_pos hd1', ← h]
    simp only [Option.some.injEq, List.cons.injEq, Aff.mk.injEq, and_true,
      true_and]
    constructor
    · rw [h1, h2, neg_div, neg_div, neg_inj, mul_div_mul_left _ _ hlam]
    · rw [h1, hc, neg_div, neg_div, neg_inj, mul_div_mul_left _ _ hlam]
  · split at h
    · next hd1 hd2 =>
      simp only [Option.some.injEq] at h
      have hz1 : (a.e1 : ℚ) - (b.e1 : ℚ) = 0 := by
        by_contra hcc; exact hd1 hcc
      have hd1' : ¬((s.e1 : ℚ) - (t.e1 : ℚ) ≠ 0) := by
        rw [h1, hz1, mul_zero]; simp
      have hd2' : (s.e2 : ℚ) - (t.e2 : ℚ) ≠ 0 := by
        rw [h2]; exact mul_ne_zero hlam hd2
      rw [if_neg hd1', if_pos hd2', ← h]
      simp only [Option.some.injEq, List.cons.injEq, Aff.mk.injEq, and_true,
        true_and]
      rw [h2, hc, neg_div, neg_div, neg_inj, mul_div_mul_left _ _ hlam]
    · exact absurd h (by simp)

theorem cross_of_orth {d x y : ℚ × ℚ} (hd : d.1 ≠ 0 ∨ d.2 ≠ 0)
    (hx : x.1 * d.1 + x.2 * d.2 = 0) (hy : y.1 * d.1 + y.2 * d.2 = 0) :
    crossQ x y = 0 := by
  have key : crossQ x y * (d.1 * d.1 + d.2 * d.2) =
      (x.1 * d.1 + x.2 * d.2) * crossQ d y -
        crossQ d x * (y.1 * d.1 + y.2 * d.2) := by
    simp only [crossQ]
    ring
  rw [hx, hy, zero_mul, mul_zero, sub_zero] at key
  have hdd : d.1 * d.1 + d.2 * d.2 ≠ 0 := by
    rcases hd with h | h
    · have h1 := mul_self_pos.mpr h
      have h2 := mul_self_nonneg d.2
      exact ne_of_gt (by linarith)
    · have h1 := mul_self_pos.mpr h
      have h2 := mul_self_nonneg d.1
      exact ne_of_gt (by linarith)
  exact (mul_eq_zero.mp key).resolve_right hdd

theorem crossQ_zero_lam {v h : ℚ × ℚ} (hv : v.1 ≠ 0 ∨ v.2 ≠ 0)
    (hc : crossQ v h = 0) : ∃ lam, h.1 = lam * v.1 ∧ h.2 = lam * v.2 := by
  simp only [crossQ] at hc
  rcases hv with hv1 | hv2
  · refine ⟨h.1 / v.1, by field_simp, ?_⟩
    field_simp
    linarith
  · refine ⟨h.2 / v.2, ?_, by field_simp⟩
    field_simp
    linarith

/-!
## Semantics of the bound-collection and joint-solving stages
-/

theorem collectBounds_isSome {m : Bool} {mm : Aff} {pt : List Aff}
    {ts : List Term2}
    (h : ∀ t ∈ ts, evalTerm t pt ≠ mm →
      solveIneq m mm (evalTerm t pt) ≠ none) :
    ∃ bs, collectBounds m mm pt ts = some bs := by
  induction ts with
  | nil => exact ⟨[], rfl⟩
  | cons t ts ih =>
    simp only [collectBounds]
    by_cases hcv : evalTerm t pt = mm
    · rw [if_pos hcv]
      exact ih (fun u hu => h u (List.mem_cons_of_mem t hu))
    · rw [if_neg hcv]
      rcases hsi : solveIneq m mm (evalTerm t pt) with _ | ob
      · exact absurd hsi (h t (List.mem_cons_self t ts) hcv)
      · rcases ob with _ | b
        · exact ih (fun u hu => h u (List.mem_cons_of_mem t hu))
        · obtain ⟨bs, hbs⟩ := ih (fun u hu => h u (List.mem_cons_of_mem t hu))
          rw [hbs]
          exact ⟨b :: bs, rfl⟩

theorem collectBounds_mem {m : Bool} {mm : Aff} {pt : List Aff}
    {ts : List Term2} {bs : List RawBound}
    (h : collectBounds m mm pt ts = some bs) {b : RawBound} (hb : b ∈ bs) :
    ∃ t ∈ ts, evalTerm t pt ≠ mm ∧
      solveIneq m mm (evalTerm t pt) = some (some b) := by
  induction ts generalizing bs with
  | nil =>
    simp only [collectBounds, Option.some.injEq] at h
    subst h
    cases hb
  | cons t ts ih =>
    simp only [collectBounds] at h
    by_cases hcv : evalTerm t pt = mm
    · rw [if_pos hcv] at h
      obtain ⟨u, hu, h2, h3⟩ := ih h hb
      exact ⟨u, List.mem_cons_of_mem t hu, h2, h3⟩
    · rw [if_neg hcv] at h
      rcases hsi : solveIneq m mm (evalTerm t pt) with _ | ob
      · rw [hsi] at h; cases h
      · rw [hsi] at h
        rcases ob with _ | b'
        · obtain ⟨u, hu, h2, h3⟩ := ih h hb
          exact ⟨u, List.mem_cons_of_mem t hu, h2, h3⟩
        · rcases hcb : collectBounds m mm pt ts with _ | bs'
          · rw [hcb] at h; cases h
          · rw [hcb] at h
            simp only [Option.some.injEq] at h
            subst h
            rcases List.mem_cons.mp hb with hbb | hbb
            · subst hbb
              exact ⟨t, List.mem_cons_self t ts, hcv, hsi⟩
            · obtain ⟨u, hu, h2, h3⟩ := ih hcb hbb
              exact ⟨u, List.mem_cons_of_mem t hu, h2, h3⟩

theorem collectBounds_each {m : Bool} {mm : Aff} {pt : List Aff}
    {ts : List Term2} {bs : List RawBound}
    (h : collectBounds m mm pt ts = some bs) {t : Term2} (ht : t ∈ ts)
    (hcv : evalTerm t pt ≠ mm) :
    solveIneq m mm (evalTerm t pt) = some none ∨
      ∃ b ∈ bs, solveIneq m mm (evalTerm t pt) = some (some b) := by
  induction ts generalizing bs with
  | nil => cases ht
  | cons u ts ih =>
    simp only [collectBounds] at h
    rcases List.mem_cons.mp ht with htu | htu
    · subst htu
      rw [if_neg hcv] at h
      rcases hsi : solveIneq m mm (evalTerm t pt) with _ | ob
      · rw [hsi] at h; cases h
      · rw [hsi] at h
        rcases ob with _ | b'
        · exact Or.inl rfl
        · rcases hcb : collectBounds m mm pt ts with _ | bs'
          · rw [hcb] at h; cases h
          · rw [hcb] at h
            simp only [Option.some.injEq] at h
            subst h
            exact Or.inr ⟨b', List.mem_cons_self b' bs', rfl⟩
    · by_cases hcu : evalTerm u pt = mm
      · rw [if_pos hcu] at h
        exact ih h htu
      · rw [if_neg hcu] at h
        rcases hsi : solveIneq m mm (evalTerm u pt) with _ | ob
        · rw [hsi] at h; cases h
        · rw [hsi] at h
          rcases ob with _ | b'
          · exact ih h htu
          · rcases hcb : collectBounds m mm pt ts with _ | bs'
            · rw [hcb] at h; cases h
            · rw [hcb] at h
              simp only [Option.some.injEq] at h
              subst h
              rcases ih hcb htu with hh | ⟨b, hbmem, hbeq⟩
              · exact Or.inl hh
              · exact Or.inr ⟨b, List.mem_cons_of_mem b' hbmem, hbeq⟩

theorem mem_lowerOf {bs : List RawBound} {q : ℚ} :
    q ∈ lowerOf bs ↔ RawBound.gtB q ∈ bs := by
  unfold lowerOf
  rw [List.mem_filterMap]
  constructor
  · rintro ⟨b, hb, hf⟩
    rcases b with q' | q' | q' <;> simp only [Option.some.injEq] at hf
    · rw [hf] at hb; exact hb
    · cases hf
    · cases hf
  · intro hb
    exact ⟨RawBound.gtB q, hb, rfl⟩

theorem mem_upperOf {bs : List RawBound} {q : ℚ} :
    q ∈ upperOf bs ↔ RawBound.ltB q ∈ bs := by
  unfold upperOf
  rw [List.mem_filterMap]
  constructor
  · rintro ⟨b, hb, hf⟩
    rcases b with q' | q' | q' <;> simp only [Option.some.injEq] at hf
    · cases hf
    · rw [hf] at hb; exact hb
    · cases hf
  · intro hb
    exact ⟨RawBound.ltB q, hb, rfl⟩

theorem rat_max_eq_some {l : List ℚ} {a : ℚ} :
    l.max? = some a ↔ a ∈ l ∧ ∀ b ∈ l, b ≤ a :=
  @List.max?_eq_some_iff ℚ a _ _ ⟨fun h1 h2 => le_antisymm h1 h2⟩
    (fun x => le_refl x) max_choice (fun _ _ _ => max_le_iff) l

theorem rat_min_eq_some {l : List ℚ} {a : ℚ} :
    l.min? = some a ↔ a ∈ l ∧ ∀ b ∈ l, a ≤ b :=
  @List.min?_eq_some_iff ℚ a _ _ ⟨fun h1 h2 => le_antisymm h1 h2⟩
    (fun x => le_refl x) min_choice (fun _ _ _ => le_min_iff) l

theorem jointSolve_cases {bs : List RawBound} {j : List RawBound}
    (h : jointSolve bs = some j) :
    (j = [] ∧ lowerOf bs = [] ∧ upperOf bs = []) ∨
    (∃ L, j = [.gtB L] ∧ (L ∈ lowerOf bs ∧ ∀ q ∈ lowerOf bs, q ≤ L) ∧
      upperOf bs = []) ∨
    (∃ U, j = [.ltB U] ∧ lowerOf bs = [] ∧
      (U ∈ upperOf bs ∧ ∀ q ∈ upperOf bs, U ≤ q)) ∨
    (∃ L U, j = [.lowltB L, .ltB U] ∧ L < U ∧
      (L ∈ lowerOf bs ∧ ∀ q ∈ lowerOf bs, q ≤ L) ∧
      (U ∈ upperOf bs ∧ ∀ q ∈ upperOf bs, U ≤ q)) := by
  unfold jointSolve at h
  rcases hl : (lowerOf bs).max? with _ | L <;>
    rcases hu : (upperOf bs).min? with _ | U <;> rw [hl, hu] at h <;>
    dsimp only at h
  · left
    refine ⟨by simpa using h.symm, List.max?_eq_none_iff.mp hl,
      List.min?_eq_none_iff.mp hu⟩
  · right; right; left
    refine ⟨U, by simpa using h.symm, List.max?_eq_none_iff.mp hl,
      rat_min_eq_some.mp hu⟩
  · right; left
    refine ⟨L, by simpa using h.symm, rat_max_eq_some.mp hl,
      List.min?_eq_none_iff.mp hu⟩
  · split at h
    · right; right; right
      exact ⟨L, U, by simpa using h.symm, by assumption,
        rat_max_eq_some.mp hl, rat_min_eq_some.mp hu⟩
    · cases h

theorem interval_canon_nil : interval (canonize []) = (none, none) := rfl

theorem interval_canon_gt (L : ℚ) :
    interval (canonize [.gtB L]) = (some L, none) := rfl

theorem interval_canon_lt (U : ℚ) :
    interval (canonize [.ltB U]) = (none, some U) := rfl

theorem interval_canon_two (L U : ℚ) :
    interval (canonize [.lowltB L, .ltB U]) = (some L, some U) := rfl

theorem processPair_elim {m : Bool} {p : List Term2} {a b : Term2}
    {pt : List Aff} {cs : List Constr}
    (h : processPair m p a b = some (pt, cs)) :
    solveEq a b = some pt ∧
    ∃ bs, collectBounds m (evalTerm a pt) pt
        (p.filter (fun t => t.key ≠ a.key ∧ t.key ≠ b.key)) = some bs ∧
      ∃ j, jointSolve bs = some j ∧ cs = canonize j := by
  simp only [processPair] at h
  rcases he : solveEq a b with _ | pt'
  · rw [he] at h; cases h
  · rw [he] at h
    dsimp only at h
    rcases hc : collectBounds m (evalTerm a pt') pt'
        (p.filter (fun t => t.key ≠ a.key ∧ t.key ≠ b.key)) with _ | bs
    · rw [hc] at h; cases h
    · rw [hc] at h
      dsimp only at h
      rcases hj : jointSolve bs with _ | j
      · rw [hj] at h; cases h
      · rw [hj] at h
        simp only [Option.some.injEq, Prod.mk.injEq] at h
        obtain ⟨hpt, hcs⟩ := h
        subst hpt
        exact ⟨rfl, bs, hc, j, hj, hcs.symm⟩

theorem processPair_intro {m : Bool} {p : List Term2} {a b : Term2}
    {pt : List Aff} {bs j : List RawBound}
    (he : solveEq a b = some pt)
    (hcb : collectBounds m (evalTerm a pt) pt
      (p.filter (fun t => t.key ≠ a.key ∧ t.key ≠ b.key)) = some bs)
    (hj : jointSolve bs = some j) :
    processPair m p a b = some (pt, canonize j) := by
  simp only [processPair, he, hcb, hj]

theorem pairsOf_mem {α : Type} {x : α × α} {l : List α}
    (h : x ∈ pairsOf l) : x.1 ∈ l ∧ x.2 ∈ l := by
  induction l with
  | nil => cases h
  | cons a l ih =>
    simp only [pairsOf, List.mem_append, List.mem_map] at h
    rcases h with ⟨y, hy, hxy⟩ | h
    · rw [← hxy]
      exact ⟨List.mem_cons_self a l, List.mem_cons_of_mem a hy⟩
    · obtain ⟨h1, h2⟩ := ih h
      exact ⟨List.mem_cons_of_mem a h1, List.mem_cons_of_mem a h2⟩

theorem mem_pairsOf {α : Type} {x y : α} {l : List α}
    (hx : x ∈ l) (hy : y ∈ l) (hne : x ≠ y) :
    (x, y) ∈ pairsOf l ∨ (y, x) ∈ pairsOf l := by
  induction l with
  | nil => cases hx
  | cons a l ih =>
    rcases List.mem_cons.mp hx with hxa | hxl
    · subst hxa
      have hyl : y ∈ l := by
        rcases List.mem_cons.mp hy with hya | hyl
        · exact absurd hya.symm hne
        · exact hyl
      left
      simp only [pairsOf, List.mem_append, List.mem_map]
      exact Or.inl ⟨y, hyl, rfl⟩
    · rcases List.mem_cons.mp hy with hya | hyl
      · subst hya
        right
        simp only [pairsOf, List.mem_append, List.mem_map]
        exact Or.inl ⟨x, hxl, rfl⟩
      · rcases ih hxl hyl with hh | hh
        · left
          simp only [pairsOf, List.mem_append]
          exact Or.inr hh
        · right
          simp only [pairsOf, List.mem_append]
          exact Or.inr hh

theorem candidates_intro {m : Bool} {p : List Term2} {a b : Term2}
    {pc : List Aff × List Constr} (hab : (a, b) ∈ pairsOf p)
    (hp : processPair m p a b = some pc) :
    (⟨pc.1, pc.2, (a.key, b.key), gcdKey a.key b.key⟩ : Comp) ∈
      candidates m p := by
  unfold candidates
  rw [List.mem_filterMap]
  exact ⟨(a, b), hab, by rw [hp]; rfl⟩

theorem processPair_comm (m : Bool) (p : List Term2) (a b : Term2) :
    processPair m p b a = processPair m p a b := by
  simp only [processPair]
  rw [solveEq_symm]
  rcases he : solveEq a b with _ | pt
  · rfl
  · dsimp only
    have hmm : evalTerm b pt = evalTerm a pt := by
      refine Aff_eq_of (r := 0) ?_ ?_
      · rw [evalTerm_sl, evalTerm_sl]
        have horth := (solveEq_dir he).2
        nlinarith [horth]
      · rw [aeval_evalTerm, aeval_evalTerm]
        exact (solveEq_tie he 0).symm
    have hfil : p.filter (fun t => t.key ≠ b.key ∧ t.key ≠ a.key) =
        p.filter (fun t => t.key ≠ a.key ∧ t.key ≠ b.key) :=
      List.filter_congr (fun t _ => by
        by_cases h1 : t.key = b.key <;> by_cases h2 : t.key = a.key <;>
          simp [h1, h2])
    rw [hmm, hfil]

/-!
## Producing a component endpoint at a prescribed parameter value
-/

theorem mem_others {p : List Term2} {s t u : Term2} :
    u ∈ p.filter (fun v => v.key ≠ s.key ∧ v.key ≠ t.key) ↔
      u ∈ p ∧ u.key ≠ s.key ∧ u.key ≠ t.key := by
  rw [List.mem_filter]
  simp

theorem endpoint_production {m : Bool} {p : List Term2} {s t : Term2}
    {pt : List Aff} (he : solveEq s t = some pt) (r0 : ℚ) (side : Bool)
    (hall : ∀ u ∈ p, u.key ≠ s.key → u.key ≠ t.key →
      evalTerm u pt ≠ evalTerm s pt →
      solveIneq m (evalTerm s pt) (evalTerm u pt) = some none ∨
      (∃ q, solveIneq m (evalTerm s pt) (evalTerm u pt) =
          some (some (.gtB q)) ∧ (if side then q ≤ r0 else q < r0)) ∨
      (∃ q, solveIneq m (evalTerm s pt) (evalTerm u pt) =
          some (some (.ltB q)) ∧ (if side then r0 < q else r0 ≤ q)))
    (hbind : ∃ u ∈ p, u.key ≠ s.key ∧ u.key ≠ t.key ∧
      evalTerm u pt ≠ evalTerm s pt ∧
      solveIneq m (evalTerm s pt) (evalTerm u pt) =
        some (some (if side then .gtB r0 else .ltB r0))) :
    ∃ cs, processPair m p s t = some (pt, cs) ∧
      endpointAt side cs = some r0 := by
  obtain ⟨bs, hbs⟩ := @collectBounds_isSome m (evalTerm s pt) pt
    (p.filter (fun v => v.key ≠ s.key ∧ v.key ≠ t.key))
    (fun u hu hcv => by
      obtain ⟨hup, hks, hkt⟩ := mem_others.mp hu
      rcases hall u hup hks hkt hcv with hh | ⟨q, hh, -⟩ | ⟨q, hh, -⟩ <;>
        rw [hh] <;> simp)
  have hmemlow : ∀ q ∈ lowerOf bs, (if side then q ≤ r0 else q < r0) := by
    intro q hq
    obtain ⟨u, hu, hcv, hsi⟩ := collectBounds_mem hbs (mem_lowerOf.mp hq)
    obtain ⟨hup, hks, hkt⟩ := mem_others.mp hu
    rcases hall u hup hks hkt hcv with hh | ⟨q', hh, hb⟩ | ⟨q', hh, hb⟩
    · rw [hh] at hsi; cases hsi
    · rw [hh] at hsi
      simp only [Option.some.injEq, RawBound.gtB.injEq] at hsi
      rw [hsi] at hb
      exact hb
    · rw [hh] at hsi
      simp only [Option.some.injEq] at hsi
      cases hsi
  have hmemup : ∀ q ∈ upperOf bs, (if side then r0 < q else r0 ≤ q) := by
    intro q hq
    obtain ⟨u, hu, hcv, hsi⟩ := collectBounds_mem hbs (mem_upperOf.mp hq)
    obtain ⟨hup, hks, hkt⟩ := mem_others.mp hu
    rcases hall u hup hks hkt hcv with hh | ⟨q', hh, hb⟩ | ⟨q', hh, hb⟩
    · rw [hh] at hsi; cases hsi
    · rw [hh] at hsi
      simp only [Option.some.injEq] at hsi
      cases hsi
    · rw [hh] at hsi
      simp only [Option.some.injEq, RawBound.ltB.injEq] at hsi
      rw [hsi] at hb
      exact hb
  obtain ⟨u0, hu0p, hu0s, hu0t, hu0cv, hu0si⟩ := hbind
  have hu0mem : u0 ∈ p.filter (fun v => v.key ≠ s.key ∧ v.key ≠ t.key) :=
    mem_others.mpr ⟨hu0p, hu0s, hu0t⟩
  have hbmem : (if side then RawBound.gtB r0 else RawBound.ltB r0) ∈ bs := by
    rcases collectBounds_each hbs hu0mem hu0cv with hh | ⟨b, hbm, hbe⟩
    · rw [hu0si] at hh
      simp at hh
    · rw [hu0si] at hbe
      simp only [Option.some.injEq] at hbe
      rw [hbe]
      exact hbm
  cases side with
  | true =>
    simp only [reduceIte] at hbmem hmemlow hmemup hu0si
    have hmax : (lowerOf bs).max? = some r0 :=
      rat_max_eq_some.mpr ⟨mem_lowerOf.mpr hbmem, hmemlow⟩
    rcases hmin : (upperOf bs).min? with _ | U
    · have hj : jointSolve bs = some [.gtB r0] := by
        unfold jointSolve
        rw [hmax, hmin]
      exact ⟨canonize [.gtB r0], processPair_intro he hbs hj, by
        simp [endpointAt, interval_canon_gt]⟩
    · have hU := rat_min_eq_some.mp hmin
      have hltU : r0 < U := hmemup U hU.1
      have hj : jointSolve bs = some [.lowltB r0, .ltB U] := by
        unfold jointSolve
        rw [hmax, hmin]
        dsimp only
        rw [if_pos hltU]
      exact ⟨canonize [.lowltB r0, .ltB U], processPair_intro he hbs hj, by
        simp [endpointAt, interval_canon_two]⟩
  | false =>
    simp only [reduceIte] at hbmem hmemlow hmemup hu0si
    have hmin : (upperOf bs).min? = some r0 :=
      rat_min_eq_some.mpr ⟨mem_upperOf.mpr hbmem, hmemup⟩
    rcases hmax : (lowerOf bs).max? with _ | L
    · have hj : jointSolve bs = some [.ltB r0] := by
        unfold jointSolve
        rw [hmax, hmin]
      exact ⟨canonize [.ltB r0], processPair_intro he hbs hj, by
        simp [endpointAt, interval_canon_lt]⟩
    · have hL := rat_max_eq_some.mp hmax
      have hltL : L < r0 := hmemlow L hL.1
      have hj : jointSolve bs = some [.lowltB L, .ltB r0] := by
        unfold jointSolve
        rw [hmax, hmin]
        dsimp only
        rw [if_pos hltL]
      exact ⟨canonize [.lowltB L, .ltB r0], processPair_intro he hbs hj, by
        simp [endpointAt, interval_canon_two]⟩

/-!
## The dominance margin of one comparison
-/

theorem dq_zsl (m : Bool) (a u : Term2) (pt : List Aff) (r : ℚ) :
    dq m a u pt r = zsl m a u pt * r +
      sgnQ m * ((evalTerm a pt).ct - (evalTerm u pt).ct) := by
  rw [← dq_lin]
  rfl

theorem dq_of_eq {m : Bool} {a u : Term2} {pt : List Aff}
    (h : evalTerm u pt = evalTerm a pt) (r : ℚ) : dq m a u pt r = 0 := by
  simp [dq, h]

theorem solveIneq_gtB_dq {m : Bool} {a u : Term2} {pt : List Aff} {q : ℚ}
    (h : solveIneq m (evalTerm a pt) (evalTerm u pt) = some (some (.gtB q))) :
    0 < zsl m a u pt ∧ ∀ r, dq m a u pt r = zsl m a u pt * (r - q) := by
  rw [solveIneq_halfLine] at h
  obtain ⟨hz, hzq, -⟩ := halfLineSolve_gtB h
  refine ⟨hz, fun r => ?_⟩
  rw [dq_zsl]
  unfold zsl
  linear_combination hzq

theorem solveIneq_ltB_dq {m : Bool} {a u : Term2} {pt : List Aff} {q : ℚ}
    (h : solveIneq m (evalTerm a pt) (evalTerm u pt) = some (some (.ltB q))) :
    zsl m a u pt < 0 ∧ ∀ r, dq m a u pt r = zsl m a u pt * (r - q) := by
  rw [solveIneq_halfLine] at h
  obtain ⟨hz, hzq, -⟩ := halfLineSolve_ltB h
  refine ⟨hz, fun r => ?_⟩
  rw [dq_zsl]
  unfold zsl
  linear_combination hzq

theorem solveIneq_trivial_dq {m : Bool} {a u : Term2} {pt : List Aff}
    (h : solveIneq m (evalTerm a pt) (evalTerm u pt) = some none) (r : ℚ) :
    0 < dq m a u pt r := by
  rw [solveIneq_halfLine] at h
  have := halfLineSolve_trivial h r
  rw [dq_zsl]
  unfold zsl
  linarith

theorem solveIneq_shape_pos {m : Bool} {a u : Term2} {pt : List Aff}
    (r1 : ℚ) (hz : 0 < zsl m a u pt) :
    solveIneq m (evalTerm a pt) (evalTerm u pt) =
      some (some (.gtB (r1 - dq m a u pt r1 / zsl m a u pt))) := by
  rw [solveIneq_halfLine]
  unfold halfLineSolve
  have hz0 : sgnQ m * ((evalTerm a pt).sl - (evalTerm u pt).sl) ≠ 0 :=
    ne_of_gt hz
  rw [if_neg (by simpa using hz0),
    if_pos (show 0 < sgnQ m * ((evalTerm a pt).sl - (evalTerm u pt).sl)
      from hz)]
  have hq : -(sgnQ m * ((evalTerm a pt).ct - (evalTerm u pt).ct)) /
      (sgnQ m * ((evalTerm a pt).sl - (evalTerm u pt).sl)) =
      r1 - dq m a u pt r1 / zsl m a u pt := by
    rw [dq_zsl]
    unfold zsl
    field_simp
    ring
  rw [hq]

theorem solveIneq_shape_neg {m : Bool} {a u : Term2} {pt : List Aff}
    (r1 : ℚ) (hz : zsl m a u pt < 0) :
    solveIneq m (evalTerm a pt) (evalTerm u pt) =
      some (some (.ltB (r1 - dq m a u pt r1 / zsl m a u pt))) := by
  rw [solveIneq_halfLine]
  unfold halfLineSolve
  have hz0 : sgnQ m * ((evalTerm a pt).sl - (evalTerm u pt).sl) ≠ 0 :=
    ne_of_lt hz
  rw [if_neg (by simpa using hz0),
    if_neg (show ¬(0 < sgnQ m * ((evalTerm a pt).sl - (evalTerm u pt).sl))
      from not_lt.mpr hz.le)]
  have hq : -(sgnQ m * ((evalTerm a pt).ct - (evalTerm u pt).ct)) /
      (sgnQ m * ((evalTerm a pt).sl - (evalTerm u pt).sl)) =
      r1 - dq m a u pt r1 / zsl m a u pt := by
    rw [dq_zsl]
    unfold zsl
    field_simp
    ring
  rw [hq]

theorem solveIneq_shape_zero {m : Bool} {a u : Term2} {pt : List Aff}
    {r1 : ℚ} (hz : zsl m a u pt = 0) (hpos : 0 < dq m a u pt r1) :
    solveIneq m (evalTerm a pt) (evalTerm u pt) = some none := by
  rw [solveIneq_halfLine]
  unfold halfLineSolve
  have hz' : sgnQ m * ((evalTerm a pt).sl - (evalTerm u pt).sl) = 0 := hz
  rw [if_pos hz']
  rw [dq_zsl, hz, zero_mul, zero_add] at hpos
  rw [if_pos hpos]

/-!
## Extracting the tie and dominance facts at a component endpoint
-/

theorem Comp_ext {c d : Comp} (h1 : d.pt = c.pt) (h2 : d.cons = c.cons)
    (h3 : d.wit = c.wit) (h4 : d.ord = c.ord) : d = c := by
  obtain ⟨dp, dc, dw, dd⟩ := d
  obtain ⟨cp, cc, cw, cd⟩ := c
  dsimp only at h1 h2 h3 h4
  rw [h1, h2, h3, h4]

theorem mem_dedup_candidates {m : Bool} {p : List Term2} {c : Comp}
    (hc : c ∈ dedup (candidates m p)) : c ∈ candidates m p := by
  obtain ⟨d, hd, h1, h2, h3, h4⟩ := (dedup_inv (candidates m p)).origin c hc
  rwa [Comp_ext h1 h2 h3 h4] at hd

theorem bounds_dominance {m : Bool} {p : List Term2} {x y : Term2}
    {pt : List Aff} {bs : List RawBound} {r0 : ℚ}
    (hbs : collectBounds m (evalTerm x pt) pt
      (p.filter (fun v => v.key ≠ x.key ∧ v.key ≠ y.key)) = some bs)
    (hlow : ∀ q ∈ lowerOf bs, q ≤ r0) (hup : ∀ q ∈ upperOf bs, r0 ≤ q) :
    ∀ u ∈ p, u.key ≠ x.key → u.key ≠ y.key → 0 ≤ dq m x u pt r0 := by
  intro u hu hks hkt
  by_cases hcv : evalTerm u pt = evalTerm x pt
  · rw [dq_of_eq hcv]
  · rcases collectBounds_each hbs (mem_others.mpr ⟨hu, hks, hkt⟩) hcv
      with hh | ⟨b, hbm, hbe⟩
    · exact (solveIneq_trivial_dq hh r0).le
    · rcases b with q | q | q
      · obtain ⟨hz, hdq⟩ := solveIneq_gtB_dq hbe
        rw [hdq r0]
        have hq := hlow q (mem_lowerOf.mpr hbm)
        nlinarith
      · obtain ⟨hz, hdq⟩ := solveIneq_ltB_dq hbe
        rw [hdq r0]
        have hq := hup q (mem_upperOf.mpr hbm)
        nlinarith
      · rw [solveIneq_halfLine] at hbe
        exact absurd hbe halfLineSolve_not_lowlt

theorem bounds_binder_gt {m : Bool} {p : List Term2} {x y : Term2}
    {pt : List Aff} {bs : List RawBound} {r0 : ℚ}
    (hbs : collectBounds m (evalTerm x pt) pt
      (p.filter (fun v => v.key ≠ x.key ∧ v.key ≠ y.key)) = some bs)
    (hmem : RawBound.gtB r0 ∈ bs) :
    ∃ cst ∈ p, cst.key ≠ x.key ∧ cst.key ≠ y.key ∧
      dq m x cst pt r0 = 0 ∧ 0 < zsl m x cst pt := by
  obtain ⟨u, hu, hcv, hsi⟩ := collectBounds_mem hbs hmem
  obtain ⟨hup, hks, hkt⟩ := mem_others.mp hu
  obtain ⟨hz, hdq⟩ := solveIneq_gtB_dq hsi
  exact ⟨u, hup, hks, hkt, by rw [hdq r0]; ring, hz⟩

theorem bounds_binder_lt {m : Bool} {p : List Term2} {x y : Term2}
    {pt : List Aff} {bs : List RawBound} {r0 : ℚ}
    (hbs : collectBounds m (evalTerm x pt) pt
      (p.filter (fun v => v.key ≠ x.key ∧ v.key ≠ y.key)) = some bs)
    (hmem : RawBound.ltB r0 ∈ bs) :
    ∃ cst ∈ p, cst.key ≠ x.key ∧ cst.key ≠ y.key ∧
      dq m x cst pt r0 = 0 ∧ zsl m x cst pt < 0 := by
  obtain ⟨u, hu, hcv, hsi⟩ := collectBounds_mem hbs hmem
  obtain ⟨hup, hks, hkt⟩ := mem_others.mp hu
  obtain ⟨hz, hdq⟩ := solveIneq_ltB_dq hsi
  exact ⟨u, hup, hks, hkt, by rw [hdq r0]; ring, hz⟩

theorem comp_endpoint_data {m : Bool} {p : List Term2} {c : Comp}
    (hc : c ∈ dedup (candidates m p)) {side : Bool} {r0 : ℚ}
    (hep : endpointAt side c.cons = some r0) :
    ∃ x y, x ∈ p ∧ y ∈ p ∧ solveEq x y = some c.pt ∧
      (∀ u ∈ p, u.key ≠ x.key → u.key ≠ y.key → 0 ≤ dq m x u c.pt r0) ∧
      (∃ cst ∈ p, cst.key ≠ x.key ∧ cst.key ≠ y.key ∧
        dq m x cst c.pt r0 = 0 ∧ 0 < esign side * zsl m x cst c.pt) ∧
      ((side = true ∧ (c.cons = [.geC r0] ∨
          ∃ U, r0 < U ∧ c.cons = [.lowleC r0, .leC U])) ∨
       (side = false ∧ (c.cons = [.leC r0] ∨
          ∃ L, L < r0 ∧ c.cons = [.lowleC L, .leC r0]))) := by
  obtain ⟨x, y, hxy, hpp, -, -⟩ := mem_candidates (mem_dedup_candidates hc)
  obtain ⟨hx, hy⟩ := pairsOf_mem hxy
  obtain ⟨he, bs, hbs, j, hj, hcons⟩ := processPair_elim hpp
  rcases jointSolve_cases hj with ⟨hj0, hlow0, hup0⟩ |
      ⟨L, hj0, ⟨hLmem, hLmax⟩, hup0⟩ |
      ⟨U, hj0, hlow0, hUmem, hUmin⟩ |
      ⟨L, U, hj0, hLU, ⟨hLmem, hLmax⟩, hUmem, hUmin⟩
  · rw [hj0] at hcons
    rw [hcons] at hep
    cases side <;> simp [endpointAt, interval_canon_nil] at hep
  · have hcc : c.cons = [Constr.geC L] := by rw [hcons, hj0]; rfl
    rw [hcc] at hep
    cases side with
    | false => simp [endpointAt, interval] at hep
    | true =>
      simp only [endpointAt, interval, reduceIte, Option.some.injEq] at hep
      subst hep
      refine ⟨x, y, hx, hy, he, ?_, ?_, ?_⟩
      · exact bounds_dominance hbs hLmax
          (fun q hq => absurd (hup0 ▸ hq) (List.not_mem_nil q))
      · obtain ⟨cst, h1, h2, h3, h4, h5⟩ :=
          bounds_binder_gt hbs (mem_lowerOf.mp hLmem)
        exact ⟨cst, h1, h2, h3, h4, by simpa [esign] using h5⟩
      · exact Or.inl ⟨rfl, Or.inl hcc⟩
  · have hcc : c.cons = [Constr.leC U] := by rw [hcons, hj0]; rfl
    rw [hcc] at hep
    cases side with
    | true => simp [endpointAt, interval] at hep
    | false =>
      simp only [endpointAt, interval, Bool.false_eq_true, if_false,
        Option.some.injEq] at hep
      subst hep
      refine ⟨x, y, hx, hy, he, ?_, ?_, ?_⟩
      · exact bounds_dominance hbs
          (fun q hq => absurd (hlow0 ▸ hq) (List.not_mem_nil q)) hUmin
      · obtain ⟨cst, h1, h2, h3, h4, h5⟩ :=
          bounds_binder_lt hbs (mem_upperOf.mp hUmem)
        exact ⟨cst, h1, h2, h3, h4, by simp [esign]; linarith⟩
      · exact Or.inr ⟨rfl, Or.inl hcc⟩
  · have hcc : c.cons = [Constr.lowleC L, Constr.leC U] := by
      rw [hcons, hj0]; rfl
    rw [hcc] at hep
    cases side with
    | true =>
      simp only [endpointAt, interval, reduceIte, Option.some.injEq,
        Constr.leftVal, Constr.rightVal] at hep
      subst hep
      refine ⟨x, y, hx, hy, he, ?_, ?_, ?_⟩
      · exact bounds_dominance hbs hLmax
          (fun q hq => (le_of_lt hLU).trans (hUmin q hq))
      · obtain ⟨cst, h1, h2, h3, h4, h5⟩ :=
          bounds_binder_gt hbs (mem_lowerOf.mp hLmem)
        exact ⟨cst, h1, h2, h3, h4, by simpa [esign] using h5⟩
      · exact Or.inl ⟨rfl, Or.inr ⟨U, hLU, hcc⟩⟩
    | false =>
      simp only [endpointAt, interval, Bool.false_eq_true, if_false,
        Option.some.injEq, Constr.leftVal, Constr.rightVal] at hep
      subst hep
      refine ⟨x, y, hx, hy, he, ?_, ?_, ?_⟩
      · exact bounds_dominance hbs
          (fun q hq => (hLmax q hq).trans (le_of_lt hLU)) hUmin
      · obtain ⟨cst, h1, h2, h3, h4, h5⟩ :=
          bounds_binder_lt hbs (mem_upperOf.mp hUmem)
        exact ⟨cst, h1, h2, h3, h4, by simp [esign]; linarith⟩
      · exact Or.inr ⟨rfl, Or.inr ⟨L, hLU, hcc⟩⟩

/-!
## Supporting facts for locating a second incidence
-/

theorem zsl_sub (m : Bool) (x a u : Term2) (pt : List Aff) :
    zsl m a u pt = zsl m x u pt - zsl m x a pt := by
  unfold zsl
  ring

theorem dq_sub (m : Bool) (x a u : Term2) (pt : List Aff) (r : ℚ) :
    dq m a u pt r = dq m x u pt r - dq m x a pt r := by
  unfold dq
  ring

theorem dq_self (m : Bool) (x : Term2) (pt : List Aff) (r : ℚ) :
    dq m x x pt r = 0 := by
  unfold dq
  ring

theorem zsl_self (m : Bool) (x : Term2) (pt : List Aff) :
    zsl m x x pt = 0 := by
  unfold zsl
  ring

theorem evalTerm_key_eq {u v : Term2} (h : u.key = v.key)
    (pt : List Aff) : (evalTerm u pt).sl = (evalTerm v pt).sl := by
  unfold Term2.key at h
  simp only [Prod.mk.injEq] at h
  rw [evalTerm_sl, evalTerm_sl, h.1, h.2]

theorem zsl_key_eq {m : Bool} {x u v : Term2} (h : u.key = v.key)
    (pt : List Aff) : zsl m x u pt = zsl m x v pt := by
  unfold zsl
  rw [evalTerm_key_eq h]

theorem nodup_key_eq {p : List Term2} (hN : (p.map Term2.key).Nodup)
    {u v : Term2} (hu : u ∈ p) (hv : v ∈ p) (h : u.key = v.key) : u = v :=
  List.inj_on_of_nodup_map hN hu hv h

theorem key_ne_diff {x y : Term2} (h : x.key ≠ y.key) :
    ¬((x.e1 : ℚ) - (y.e1 : ℚ) = 0 ∧ (x.e2 : ℚ) - (y.e2 : ℚ) = 0) := by
  rintro ⟨h1, h2⟩
  apply h
  unfold Term2.key
  have he1 : x.e1 = y.e1 := by exact_mod_cast sub_eq_zero.mp h1
  have he2 : x.e2 = y.e2 := by exact_mod_cast sub_eq_zero.mp h2
  rw [he1, he2]

theorem solveEq_isSome {a b : Term2} (h : a.key ≠ b.key) :
    ∃ pt, solveEq a b = some pt := by
  simp only [solveEq]
  by_cases h1 : (a.e1 : ℚ) - (b.e1 : ℚ) ≠ 0
  · rw [if_pos h1]
    exact ⟨_, rfl⟩
  · rw [if_neg h1]
    have h2 : (a.e2 : ℚ) - (b.e2 : ℚ) ≠ 0 := by
      intro h2
      exact key_ne_diff h ⟨not_not.mp h1, h2⟩
    rw [if_pos h2]
    exact ⟨_, rfl⟩

theorem sl_diff_dot (u v : Term2) (pt : List Aff) :
    (evalTerm u pt).sl - (evalTerm v pt).sl =
      ((u.e1 : ℚ) - (v.e1 : ℚ)) * (dirOf pt).1 +
        ((u.e2 : ℚ) - (v.e2 : ℚ)) * (dirOf pt).2 := by
  rw [evalTerm_sl, evalTerm_sl]
  ring

theorem tval_eq_of_dq {m : Bool} {x u : Term2} {pt : List Aff} {r : ℚ}
    (h : dq m x u pt r = 0) :
    tval u (evalPt pt r) = tval x (evalPt pt r) := by
  rw [dq_tval] at h
  rcases mul_eq_zero.mp h with hh | hh
  · exact absurd hh (sgnQ_ne_zero m)
  · linarith [sub_eq_zero.mp hh]

theorem dq_of_tval (m : Bool) (x u : Term2) (pt : List Aff) (r : ℚ) :
    dq m x u pt r =
      sgnQ m * (tval x (evalPt pt r) - tval u (evalPt pt r)) :=
  dq_tval m x u pt r

theorem evalTerm_eq_of {m : Bool} {a u : Term2} {pt : List Aff} {r1 : ℚ}
    (hz : zsl m a u pt = 0) (ht : dq m a u pt r1 = 0) :
    evalTerm u pt = evalTerm a pt := by
  have hs := sgnQ_ne_zero m
  refine Aff_eq_of (r := r1) ?_ ?_
  · unfold zsl at hz
    rcases mul_eq_zero.mp hz with hh | hh
    · exact absurd hh hs
    · linarith [sub_eq_zero.mp hh]
  · unfold dq at ht
    rcases mul_eq_zero.mp ht with hh | hh
    · exact absurd hh hs
    · linarith [sub_eq_zero.mp hh]

theorem evalTerm_ne_of_zsl {m : Bool} {a u : Term2} {pt : List Aff}
    (hz : zsl m a u pt ≠ 0) : evalTerm u pt ≠ evalTerm a pt := by
  intro hh
  apply hz
  unfold zsl
  rw [hh]
  ring

theorem hall_of_tie_pos {m : Bool} {a u : Term2} {pt : List Aff} {r1 : ℚ}
    (htie : dq m a u pt r1 = 0) (hz : 0 < zsl m a u pt) :
    solveIneq m (evalTerm a pt) (evalTerm u pt) =
      some (some (.gtB r1)) := by
  have hh := solveIneq_shape_pos r1 hz
  rw [htie] at hh
  simpa using hh

theorem hall_of_tie_neg {m : Bool} {a u : Term2} {pt : List Aff} {r1 : ℚ}
    (htie : dq m a u pt r1 = 0) (hz : zsl m a u pt < 0) :
    solveIneq m (evalTerm a pt) (evalTerm u pt) =
      some (some (.ltB r1)) := by
  have hh := solveIneq_shape_neg r1 hz
  rw [htie] at hh
  simpa using hh

theorem hall_of_pos {m : Bool} {a u : Term2} {pt : List Aff} {r1 : ℚ}
    (hpos : 0 < dq m a u pt r1) (side' : Bool) :
    solveIneq m (evalTerm a pt) (evalTerm u pt) = some none ∨
      (∃ q, solveIneq m (evalTerm a pt) (evalTerm u pt) =
          some (some (.gtB q)) ∧ (if side' then q ≤ r1 else q < r1)) ∨
      (∃ q, solveIneq m (evalTerm a pt) (evalTerm u pt) =
          some (some (.ltB q)) ∧ (if side' then r1 < q else r1 ≤ q)) := by
  rcases lt_trichotomy (zsl m a u pt) 0 with hz | hz | hz
  · right; right
    refine ⟨r1 - dq m a u pt r1 / zsl m a u pt, solveIneq_shape_neg r1 hz, ?_⟩
    have hd : dq m a u pt r1 / zsl m a u pt < 0 :=
      div_neg_of_pos_of_neg hpos hz
    split <;> linarith
  · exact Or.inl (solveIneq_shape_zero hz hpos)
  · right; left
    refine ⟨r1 - dq m a u pt r1 / zsl m a u pt, solveIneq_shape_pos r1 hz, ?_⟩
    have hd : 0 < dq m a u pt r1 / zsl m a u pt := div_pos hpos hz
    split <;> linarith

theorem exists_max_image {f : Term2 → ℚ} {l : List Term2} {u0 : Term2}
    (h : u0 ∈ l) : ∃ w, ∃ v ∈ l, f v = w ∧ ∀ u ∈ l, f u ≤ w := by
  rcases hm : (l.map f).max? with _ | w
  · rw [List.max?_eq_none_iff, List.map_eq_nil_iff] at hm
    subst hm
    cases h
  · obtain ⟨hmem, hb⟩ := rat_max_eq_some.mp hm
    obtain ⟨v, hv, hfv⟩ := List.mem_map.mp hmem
    exact ⟨w, v, hv, hfv, fun u hu => hb _ (List.mem_map.mpr ⟨u, hu, rfl⟩)⟩

theorem mem_tied {m : Bool} {x : Term2} {pt : List Aff} {r0 : ℚ}
    {p : List Term2} {u : Term2} :
    u ∈ p.filter (fun v => dq m x v pt r0 = 0) ↔
      u ∈ p ∧ dq m x u pt r0 = 0 := by
  rw [List.mem_filter]
  simp

theorem candidate_to_comp {m : Bool} {p : List Term2} {s t : Term2}
    (hs : s ∈ p) (ht : t ∈ p) (hne : s ≠ t) {pt' : List Aff}
    {cs' : List Constr} (hpp : processPair m p s t = some (pt', cs')) :
    ∃ c' ∈ dedup (candidates m p), c'.pt = pt' ∧ c'.cons = cs' := by
  rcases mem_pairsOf hs ht hne with hp1 | hp1
  · have hcand := candidates_intro hp1 hpp
    obtain ⟨c', hc', h1, h2⟩ := (dedup_inv (candidates m p)).complete _ hcand
    exact ⟨c', hc', h1, h2⟩
  · have hpp2 : processPair m p t s = some (pt', cs') := by
      rw [processPair_comm]
      exact hpp
    have hcand := candidates_intro hp1 hpp2
    obtain ⟨c', hc', h1, h2⟩ := (dedup_inv (candidates m p)).complete _ hcand
    exact ⟨c', hc', h1, h2⟩

theorem esign_ne_zero (side : Bool) : esign side ≠ 0 := by
  cases side <;> simp [esign]

theorem hall_tie_case {m : Bool} {a u : Term2} {pt : List Aff} {r1 : ℚ}
    {side : Bool} (htie : dq m a u pt r1 = 0)
    (hzs : esign side * zsl m a u pt < 0) :
    (∃ q, solveIneq m (evalTerm a pt) (evalTerm u pt) =
        some (some (.gtB q)) ∧ (if !side then q ≤ r1 else q < r1)) ∨
    (∃ q, solveIneq m (evalTerm a pt) (evalTerm u pt) =
        some (some (.ltB q)) ∧ (if !side then r1 < q else r1 ≤ q)) := by
  cases side with
  | true =>
    have hz : zsl m a u pt < 0 := by
      simp only [esign, if_pos] at hzs
      linarith
    exact Or.inr ⟨r1, hall_of_tie_neg htie hz, by simp⟩
  | false =>
    have hz : 0 < zsl m a u pt := by
      simp only [esign, Bool.false_eq_true, if_false] at hzs
      nlinarith
    exact Or.inl ⟨r1, hall_of_tie_pos htie hz, by simp⟩

theorem second_incidence_same_line {m : Bool} {p : List Term2}
    (hN : (p.map Term2.key).Nodup) {c : Comp} {side : Bool} {r0 : ℚ}
    {x y s0 t0 : Term2}
    (hx : x ∈ p) (hy : y ∈ p) (he : solveEq x y = some c.pt)
    (hdom : ∀ u ∈ p, u.key ≠ x.key → u.key ≠ y.key → 0 ≤ dq m x u c.pt r0)
    (hs0 : s0 ∈ p) (ht0 : t0 ∈ p) (hkst : s0.key ≠ t0.key)
    (hties : dq m x s0 c.pt r0 = 0) (htiet : dq m x t0 c.pt r0 = 0)
    (hW : ∀ u ∈ p, dq m x u c.pt r0 = 0 →
      esign side * zsl m x u c.pt ≤ esign side * zsl m x s0 c.pt)
    (hWe : zsl m x t0 c.pt = zsl m x s0 c.pt)
    (hWpos : 0 < esign side * zsl m x s0 c.pt)
    (hepne : endpointAt (!side) c.cons ≠ some r0) :
    ∃ c' ∈ dedup (candidates m p), c'.pt = c.pt ∧ c'.cons ≠ c.cons ∧
      endpointAt (!side) c'.cons = some r0 := by
  have hkxy : x.key ≠ y.key := solveEq_key_ne he
  have htiey : ∀ r, dq m x y c.pt r = 0 := fun r => by
    rw [dq_tval, solveEq_tie he r, sub_self, mul_zero]
  have hzs0 : zsl m x s0 c.pt ≠ 0 := by
    intro hh
    rw [hh, mul_zero] at hWpos
    exact lt_irrefl 0 hWpos
  have hkxs0 : x.key ≠ s0.key := by
    intro hk
    exact hzs0 (by rw [← zsl_key_eq hk c.pt, zsl_self])
  have hkxt0 : x.key ≠ t0.key := by
    intro hk
    rw [← zsl_key_eq hk c.pt, zsl_self] at hWe
    exact hzs0 hWe.symm
  -- the two chosen terms span the same line through the endpoint
  have hdir := solveEq_dir he
  have hsgn := sgnQ_ne_zero m
  have hslst : (evalTerm s0 c.pt).sl = (evalTerm t0 c.pt).sl := by
    have hz : zsl m s0 t0 c.pt = 0 := by
      rw [zsl_sub m x s0 t0 c.pt, hWe, sub_self]
    unfold zsl at hz
    rcases mul_eq_zero.mp hz with hh | hh
    · exact absurd hh hsgn
    · linarith [sub_eq_zero.mp hh]
  have horth_st : ((s0.e1 : ℚ) - (t0.e1 : ℚ)) * (dirOf c.pt).1 +
      ((s0.e2 : ℚ) - (t0.e2 : ℚ)) * (dirOf c.pt).2 = 0 := by
    rw [← sl_diff_dot, hslst, sub_self]
  have hcr : crossQ ((x.e1 : ℚ) - (y.e1 : ℚ), (x.e2 : ℚ) - (y.e2 : ℚ))
      ((s0.e1 : ℚ) - (t0.e1 : ℚ), (s0.e2 : ℚ) - (t0.e2 : ℚ)) = 0 :=
    cross_of_orth hdir.1 hdir.2 horth_st
  have hdxy : ((x.e1 : ℚ) - (y.e1 : ℚ) ≠ 0) ∨
      ((x.e2 : ℚ) - (y.e2 : ℚ) ≠ 0) := by
    rcases not_and_or.mp (key_ne_diff hkxy) with hh | hh
    · exact Or.inl hh
    · exact Or.inr hh
  obtain ⟨lam, hl1, hl2⟩ := crossQ_zero_lam hdxy hcr
  dsimp only at hl1 hl2
  have hlam : lam ≠ 0 := by
    intro hh
    rw [hh, zero_mul] at hl1 hl2
    exact key_ne_diff hkst ⟨hl1, hl2⟩
  have hE1 : (s0.e1 : ℚ) * (evalPt c.pt r0).1 + (s0.e2 : ℚ) *
      (evalPt c.pt r0).2 + s0.cf = (t0.e1 : ℚ) * (evalPt c.pt r0).1 +
      (t0.e2 : ℚ) * (evalPt c.pt r0).2 + t0.cf := by
    have h1 := tval_eq_of_dq hties
    have h2 := tval_eq_of_dq htiet
    have := h1.trans h2.symm
    simpa [tval] using this
  have hE2 : (x.e1 : ℚ) * (evalPt c.pt r0).1 + (x.e2 : ℚ) *
      (evalPt c.pt r0).2 + x.cf = (y.e1 : ℚ) * (evalPt c.pt r0).1 +
      (y.e2 : ℚ) * (evalPt c.pt r0).2 + y.cf := by
    have := solveEq_tie he r0
    simpa [tval] using this
  have hcf : s0.cf - t0.cf = lam * (x.cf - y.cf) := by
    linear_combination hE1 - lam * hE2 - (evalPt c.pt r0).1 * hl1 -
      (evalPt c.pt r0).2 * hl2
  have hest : solveEq s0 t0 = some c.pt :=
    solveEq_parallel he hlam hl1 hl2 hcf
  -- every other term fits the endpoint-production hypotheses
  have hall : ∀ u ∈ p, u.key ≠ s0.key → u.key ≠ t0.key →
      evalTerm u c.pt ≠ evalTerm s0 c.pt →
      solveIneq m (evalTerm s0 c.pt) (evalTerm u c.pt) = some none ∨
      (∃ q, solveIneq m (evalTerm s0 c.pt) (evalTerm u c.pt) =
          some (some (.gtB q)) ∧ (if !side then q ≤ r0 else q < r0)) ∨
      (∃ q, solveIneq m (evalTerm s0 c.pt) (evalTerm u c.pt) =
          some (some (.ltB q)) ∧ (if !side then r0 < q else r0 ≤ q)) := by
    intro u hu hks hkt hcv
    by_cases hut : dq m x u c.pt r0 = 0
    · have hdq' : dq m s0 u c.pt r0 = 0 := by
        rw [dq_sub m x s0 u c.pt r0, hut, hties, sub_self]
      have hle : esign side * zsl m s0 u c.pt ≤ 0 := by
        have := hW u hu hut
        rw [zsl_sub m x s0 u c.pt]
        linarith [this]
      rcases eq_or_lt_of_le hle with heq | hlt
      · exfalso
        apply hcv
        refine evalTerm_eq_of ?_ hdq'
        have := esign_ne_zero side
        rcases mul_eq_zero.mp heq with hh | hh
        · exact absurd hh this
        · exact hh
      · rcases hall_tie_case hdq' hlt with hh | hh
        · exact Or.inr (Or.inl hh)
        · exact Or.inr (Or.inr hh)
    · have hkux : u.key ≠ x.key := by
        intro hk
        exact hut (by rw [nodup_key_eq hN hu hx hk]; exact dq_self m x c.pt r0)
      have hkuy : u.key ≠ y.key := by
        intro hk
        exact hut (by rw [nodup_key_eq hN hu hy hk]; exact htiey r0)
      have hpos : 0 < dq m x u c.pt r0 :=
        lt_of_le_of_ne (hdom u hu hkux hkuy) (Ne.symm hut)
      have hpos' : 0 < dq m s0 u c.pt r0 := by
        rw [dq_sub m x s0 u c.pt r0, hties]
        linarith
      exact hall_of_pos hpos' (!side)
  have hbind : ∃ u ∈ p, u.key ≠ s0.key ∧ u.key ≠ t0.key ∧
      evalTerm u c.pt ≠ evalTerm s0 c.pt ∧
      solveIneq m (evalTerm s0 c.pt) (evalTerm u c.pt) =
        some (some (if !side then .gtB r0 else .ltB r0)) := by
    refine ⟨x, hx, hkxs0, hkxt0, ?_, ?_⟩
    · apply evalTerm_ne_of_zsl
      rw [zsl_sub m x s0 x c.pt, zsl_self, zero_sub]
      exact neg_ne_zero.mpr hzs0
    · have htiex : dq m s0 x c.pt r0 = 0 := by
        rw [dq_sub m x s0 x c.pt r0, dq_self, hties, sub_self]
      have hzx : zsl m s0 x c.pt = -zsl m x s0 c.pt := by
        rw [zsl_sub m x s0 x c.pt, zsl_self, zero_sub]
      cases side with
      | true =>
        have hz : zsl m s0 x c.pt < 0 := by
          simp only [esign, if_pos] at hWpos
          rw [hzx]
          linarith
        simpa using hall_of_tie_neg htiex hz
      | false =>
        have hz : 0 < zsl m s0 x c.pt := by
          simp only [esign, Bool.false_eq_true, if_false] at hWpos
          rw [hzx]
          nlinarith
        simpa using hall_of_tie_pos htiex hz
  obtain ⟨cs', hpp', hep'⟩ := endpoint_production hest r0 (!side) hall hbind
  have hst_ne : s0 ≠ t0 := fun hh => hkst (by rw [hh])
  obtain ⟨c', hc', hpt', hcons'⟩ := candidate_to_comp hs0 ht0 hst_ne hpp'
  refine ⟨c', hc', hpt', ?_, by rw [hcons']; exact hep'⟩
  intro hh
  apply hepne
  rw [← hh, hcons']
  exact hep'

theorem second_incidence_cross_line {m : Bool} {p : List Term2}
    (hN : (p.map Term2.key).Nodup) {c : Comp} {side : Bool} {r0 : ℚ}
    {x y sst cst : Term2}
    (hx : x ∈ p) (hy : y ∈ p) (he : solveEq x y = some c.pt)
    (hdom : ∀ u ∈ p, u.key ≠ x.key → u.key ≠ y.key → 0 ≤ dq m x u c.pt r0)
    (hcstp : cst ∈ p) (hcsttie : dq m x cst c.pt r0 = 0)
    (hcstsl : 0 < esign side * zsl m x cst c.pt)
    (hsstp : sst ∈ p) (hstie : dq m x sst c.pt r0 = 0)
    (hWmax : ∀ u ∈ p, dq m x u c.pt r0 = 0 →
      esign side * zsl m x u c.pt ≤ esign side * zsl m x sst c.pt)
    (hB : ∀ u ∈ p, dq m x u c.pt r0 = 0 → u.key ≠ sst.key →
      esign side * zsl m x u c.pt < esign side * zsl m x sst c.pt) :
    ∃ c' ∈ dedup (candidates m p), c'.pt ≠ c.pt ∧ ∃ side' r1,
      endpointAt side' c'.cons = some r1 ∧
      evalPt c'.pt r1 = evalPt c.pt r0 := by
  have hsgn := sgnQ_ne_zero m
  have hes := esign_ne_zero side
  have hkxy : x.key ≠ y.key := solveEq_key_ne he
  have hdir := solveEq_dir he
  have htiey : ∀ r, dq m x y c.pt r = 0 := fun r => by
    rw [dq_tval, solveEq_tie he r, sub_self, mul_zero]
  have hWpos : 0 < esign side * zsl m x sst c.pt :=
    lt_of_lt_of_le hcstsl (hWmax cst hcstp hcsttie)
  have hzsst : zsl m x sst c.pt ≠ 0 := by
    intro hh
    rw [hh, mul_zero] at hWpos
    exact lt_irrefl 0 hWpos
  have hkxsst : x.key ≠ sst.key := by
    intro hk
    exact hzsst (by rw [← zsl_key_eq hk c.pt, zsl_self])
  have hzy : zsl m x y c.pt = 0 := by
    unfold zsl
    have hsl : (evalTerm x c.pt).sl - (evalTerm y c.pt).sl = 0 := by
      rw [sl_diff_dot]
      exact hdir.2
    rw [hsl, mul_zero]
  have hkysst : y.key ≠ sst.key := by
    intro hk
    apply hzsst
    rw [← zsl_key_eq hk c.pt]
    exact hzy
  -- the tied terms other than the dominant one, and the gift-wrap choice
  have hmemTl : ∀ u, u ∈ p.filter
        (fun v => dq m x v c.pt r0 = 0 ∧ v.key ≠ sst.key) ↔
      u ∈ p ∧ dq m x u c.pt r0 = 0 ∧ u.key ≠ sst.key := by
    intro u
    rw [List.mem_filter]
    simp
  have hxTl : x ∈ p.filter (fun v => dq m x v c.pt r0 = 0 ∧ v.key ≠ sst.key) :=
    (hmemTl x).mpr ⟨hx, dq_self m x c.pt r0, hkxsst⟩
  obtain ⟨sm, t0, ht0Tl, hσt0, hσmax⟩ := exists_max_image
    (f := fun u => (esign side * sgnQ m * crossQ (dirOf c.pt) (hvec sst u)) /
      (esign side * (zsl m x sst c.pt - zsl m x u c.pt))) hxTl
  obtain ⟨ht0p, ht0tie, hkt0sst⟩ := (hmemTl t0).mp ht0Tl
  -- the dot-product form of the slope margin
  have hα : ∀ u : Term2, esign side * (zsl m x sst c.pt - zsl m x u c.pt) =
      esign side * sgnQ m * ((hvec sst u).1 * (dirOf c.pt).1 +
        (hvec sst u).2 * (dirOf c.pt).2) := by
    intro u
    have hsd := sl_diff_dot u sst c.pt
    unfold zsl hvec
    dsimp only
    linear_combination (esign side * sgnQ m) * hsd
  have hαpos : ∀ u ∈ p, dq m x u c.pt r0 = 0 → u.key ≠ sst.key →
      0 < esign side * (zsl m x sst c.pt - zsl m x u c.pt) := by
    intro u hu ht hk
    have hlt := hB u hu ht hk
    have hms : esign side * (zsl m x sst c.pt - zsl m x u c.pt) =
        esign side * zsl m x sst c.pt - esign side * zsl m x u c.pt :=
      mul_sub _ _ _
    linarith
  have hαt0 := hαpos t0 ht0p ht0tie hkt0sst
  have hVne : (hvec sst t0).1 ≠ 0 ∨ (hvec sst t0).2 ≠ 0 := by
    rcases not_and_or.mp (key_ne_diff hkt0sst) with hh | hh
    · exact Or.inl hh
    · exact Or.inr hh
  have hdd : 0 < (dirOf c.pt).1 * (dirOf c.pt).1 +
      (dirOf c.pt).2 * (dirOf c.pt).2 := by
    rcases hdir.1 with h | h
    · have h1 := mul_self_pos.mpr h
      have h2 := mul_self_nonneg (dirOf c.pt).2
      linarith
    · have h1 := mul_self_pos.mpr h
      have h2 := mul_self_nonneg (dirOf c.pt).1
      linarith
  have hcross_le : ∀ u ∈ p, dq m x u c.pt r0 = 0 → u.key ≠ sst.key →
      crossQ (hvec sst t0) (hvec sst u) ≤ 0 := by
    intro u hu htie hk
    have hαu := hαpos u hu htie hk
    have huTl : u ∈ p.filter
        (fun v => dq m x v c.pt r0 = 0 ∧ v.key ≠ sst.key) :=
      (hmemTl u).mpr ⟨hu, htie, hk⟩
    have hσ := hσmax u huTl
    rw [← hσt0] at hσ
    rw [div_le_div_iff hαu hαt0] at hσ
    have hid : crossQ (hvec sst t0) (hvec sst u) *
        ((dirOf c.pt).1 * (dirOf c.pt).1 + (dirOf c.pt).2 * (dirOf c.pt).2) =
        (esign side * sgnQ m * crossQ (dirOf c.pt) (hvec sst u)) *
          (esign side * (zsl m x sst c.pt - zsl m x t0 c.pt)) -
        (esign side * sgnQ m * crossQ (dirOf c.pt) (hvec sst t0)) *
          (esign side * (zsl m x sst c.pt - zsl m x u c.pt)) := by
      rw [hα t0, hα u]
      cases side <;> cases m <;>
        simp only [esign, sgnQ, crossQ, hvec, reduceIte, Bool.false_eq_true,
          if_false] <;> ring
    by_contra hpos
    push_neg at hpos
    have hmul := mul_pos hpos hdd
    nlinarith
  -- the new pair and its parametrized line
  have hkne : sst.key ≠ t0.key := Ne.symm hkt0sst
  obtain ⟨pt', hest⟩ := solveEq_isSome hkne
  have htvsst := tval_eq_of_dq hstie
  have htvt0 := tval_eq_of_dq ht0tie
  obtain ⟨r1, hr1⟩ := solveEq_complete hest (htvsst.trans htvt0.symm)
  have htrans : ∀ u : Term2, dq m sst u pt' r1 = dq m x u c.pt r0 := by
    intro u
    rw [dq_tval m sst u pt' r1, hr1, ← dq_tval m sst u c.pt r0,
      dq_sub m x sst u c.pt r0, hstie]
    ring
  have hdir' := solveEq_dir hest
  have horthV : (hvec sst t0).1 * (dirOf pt').1 +
      (hvec sst t0).2 * (dirOf pt').2 = 0 := by
    have hh := hdir'.2
    unfold hvec
    dsimp only
    linear_combination -hh
  have hnvne : (-(hvec sst t0).2) ≠ 0 ∨ (hvec sst t0).1 ≠ 0 := by
    rcases hVne with hh | hh
    · exact Or.inr hh
    · exact Or.inl (neg_ne_zero.mpr hh)
  have hcr0 : crossQ (-(hvec sst t0).2, (hvec sst t0).1) (dirOf pt') = 0 := by
    refine cross_of_orth hVne ?_ (by linear_combination horthV)
    dsimp only
    ring
  obtain ⟨xi, hxi1, hxi2⟩ := crossQ_zero_lam hnvne hcr0
  dsimp only at hxi1 hxi2
  have hxine : xi ≠ 0 := by
    intro hh
    rw [hh, zero_mul] at hxi1 hxi2
    rcases hdir'.1 with h | h
    · exact h hxi1
    · exact h hxi2
  have hz' : ∀ u : Term2, zsl m sst u pt' =
      -(sgnQ m * xi) * crossQ (hvec sst t0) (hvec sst u) := by
    intro u
    unfold zsl
    have hsd := sl_diff_dot sst u pt'
    rw [hsd, hxi1, hxi2]
    unfold crossQ hvec
    dsimp only
    ring
  -- a blocking term off the new line exists among the two pair members and
  -- the binding term of the original endpoint
  have hkey_of_cross : ∀ u, u ∈ p →
      crossQ (hvec sst t0) (hvec sst u) ≠ 0 →
      u.key ≠ sst.key ∧ u.key ≠ t0.key := by
    intro u hup hcne
    constructor
    · intro hk
      apply hcne
      rw [nodup_key_eq hN hup hsstp hk]
      unfold crossQ hvec
      dsimp only
      ring
    · intro hk
      apply hcne
      rw [nodup_key_eq hN hup ht0p hk]
      unfold crossQ hvec
      dsimp only
      ring
  have hblock : ∃ u0, u0 ∈ p ∧ dq m x u0 c.pt r0 = 0 ∧
      crossQ (hvec sst t0) (hvec sst u0) ≠ 0 := by
    by_cases hcx : crossQ (hvec sst t0) (hvec sst x) = 0
    · by_cases hcy : crossQ (hvec sst t0) (hvec sst y) = 0
      · by_cases hcc : crossQ (hvec sst t0) (hvec sst cst) = 0
        · exfalso
          obtain ⟨l1, hx1, hx2⟩ := crossQ_zero_lam hVne hcx
          obtain ⟨l2, hy1, hy2⟩ := crossQ_zero_lam hVne hcy
          obtain ⟨l3, hc1, hc2⟩ := crossQ_zero_lam hVne hcc
          unfold hvec at hx1 hx2 hy1 hy2 hc1 hc2
          dsimp only at hx1 hx2 hy1 hy2 hc1 hc2
          have hzc : zsl m x cst c.pt ≠ 0 := by
            intro hh
            rw [hh, mul_zero] at hcstsl
            exact lt_irrefl 0 hcstsl
          have hdotc : ((cst.e1 : ℚ) - (x.e1 : ℚ)) * (dirOf c.pt).1 +
              ((cst.e2 : ℚ) - (x.e2 : ℚ)) * (dirOf c.pt).2 ≠ 0 := by
            rw [← sl_diff_dot]
            intro hh
            apply hzc
            unfold zsl
            rw [show (evalTerm x c.pt).sl - (evalTerm cst c.pt).sl = 0 by
              linarith [hh], mul_zero]
          have hdoty : ((y.e1 : ℚ) - (x.e1 : ℚ)) * (dirOf c.pt).1 +
              ((y.e2 : ℚ) - (x.e2 : ℚ)) * (dirOf c.pt).2 = 0 := by
            linear_combination -hdir.2
          have hdxyne : ((y.e1 : ℚ) - (x.e1 : ℚ) ≠ 0) ∨
              ((y.e2 : ℚ) - (x.e2 : ℚ) ≠ 0) := by
            rcases not_and_or.mp (key_ne_diff (Ne.symm hkxy)) with hh | hh
            · exact Or.inl hh
            · exact Or.inr hh
          apply hdotc
          obtain ⟨mu, hm1, hm2⟩ := crossQ_zero_lam hdxyne (by
            show crossQ ((y.e1 : ℚ) - (x.e1 : ℚ), (y.e2 : ℚ) - (x.e2 : ℚ))
              ((cst.e1 : ℚ) - (x.e1 : ℚ), (cst.e2 : ℚ) - (x.e2 : ℚ)) = 0
            unfold crossQ
            dsimp only
            have k1 : (y.e1 : ℚ) - (x.e1 : ℚ) =
                (l2 - l1) * ((t0.e1 : ℚ) - (sst.e1 : ℚ)) := by
              linear_combination hy1 - hx1
            have k2 : (y.e2 : ℚ) - (x.e2 : ℚ) =
                (l2 - l1) * ((t0.e2 : ℚ) - (sst.e2 : ℚ)) := by
              linear_combination hy2 - hx2
            have k3 : (cst.e1 : ℚ) - (x.e1 : ℚ) =
                (l3 - l1) * ((t0.e1 : ℚ) - (sst.e1 : ℚ)) := by
              linear_combination hc1 - hx1
            have k4 : (cst.e2 : ℚ) - (x.e2 : ℚ) =
                (l3 - l1) * ((t0.e2 : ℚ) - (sst.e2 : ℚ)) := by
              linear_combination hc2 - hx2
            rw [k1, k2, k3, k4]
            ring)
          dsimp only at hm1 hm2
          rw [hm1, hm2]
          linear_combination mu * hdoty
        · exact ⟨cst, hcstp, hcsttie, hcc⟩
      · exact ⟨y, hy, htiey r0, hcy⟩
    · exact ⟨x, hx, dq_self m x c.pt r0, hcx⟩
  obtain ⟨u0, hu0p, hu0tie, hu0c⟩ := hblock
  obtain ⟨hu0ks, hu0kt⟩ := hkey_of_cross u0 hu0p hu0c
  have hu0lt : crossQ (hvec sst t0) (hvec sst u0) < 0 :=
    lt_of_le_of_ne (hcross_le u0 hu0p hu0tie hu0ks) hu0c
  have hu0dq : dq m sst u0 pt' r1 = 0 := by
    rw [htrans u0]
    exact hu0tie
  have hst_ne : sst ≠ t0 := fun hh => hkne (by rw [hh])
  -- keys of the untied terms differ from the original pair members
  have huntied : ∀ u ∈ p, ¬(dq m x u c.pt r0 = 0) → u.key ≠ sst.key →
      u.key ≠ t0.key → 0 < dq m sst u pt' r1 := by
    intro u hu hut hks hkt
    have hkux : u.key ≠ x.key := by
      intro hk
      exact hut (by rw [nodup_key_eq hN hu hx hk]; exact dq_self m x c.pt r0)
    have hkuy : u.key ≠ y.key := by
      intro hk
      exact hut (by rw [nodup_key_eq hN hu hy hk]; exact htiey r0)
    have hpos : 0 < dq m x u c.pt r0 :=
      lt_of_le_of_ne (hdom u hu hkux hkuy) (Ne.symm hut)
    rw [htrans u]
    exact hpos
  -- the sign of the parametrization orientation fixes the blocked side
  by_cases hK : 0 < sgnQ m * xi
  · have hall : ∀ u ∈ p, u.key ≠ sst.key → u.key ≠ t0.key →
        evalTerm u pt' ≠ evalTerm sst pt' →
        solveIneq m (evalTerm sst pt') (evalTerm u pt') = some none ∨
        (∃ q, solveIneq m (evalTerm sst pt') (evalTerm u pt') =
            some (some (.gtB q)) ∧ (if true then q ≤ r1 else q < r1)) ∨
        (∃ q, solveIneq m (evalTerm sst pt') (evalTerm u pt') =
            some (some (.ltB q)) ∧ (if true then r1 < q else r1 ≤ q)) := by
      intro u hu hks hkt hcv
      by_cases hut : dq m x u c.pt r0 = 0
      · have hdq0 : dq m sst u pt' r1 = 0 := by
          rw [htrans u]
          exact hut
        rcases lt_or_eq_of_le (hcross_le u hu hut hks) with hclt | hc0
        · have hzpos : 0 < zsl m sst u pt' := by
            rw [hz' u]
            exact mul_pos_of_neg_of_neg (neg_lt_zero.mpr hK) hclt
          exact Or.inr (Or.inl ⟨r1, hall_of_tie_pos hdq0 hzpos, by simp⟩)
        · exfalso
          apply hcv
          refine evalTerm_eq_of ?_ hdq0
          rw [hz' u, hc0, mul_zero]
      · exact hall_of_pos (huntied u hu hut hks hkt) true
    have hbind : ∃ u ∈ p, u.key ≠ sst.key ∧ u.key ≠ t0.key ∧
        evalTerm u pt' ≠ evalTerm sst pt' ∧
        solveIneq m (evalTerm sst pt') (evalTerm u pt') =
          some (some (if true then .gtB r1 else .ltB r1)) := by
      have hu0z : 0 < zsl m sst u0 pt' := by
        rw [hz' u0]
        exact mul_pos_of_neg_of_neg (neg_lt_zero.mpr hK) hu0lt
      exact ⟨u0, hu0p, hu0ks, hu0kt, evalTerm_ne_of_zsl (ne_of_gt hu0z),
        by simpa using hall_of_tie_pos hu0dq hu0z⟩
    obtain ⟨cs', hpp', hep'⟩ := endpoint_production hest r1 true hall hbind
    obtain ⟨c', hc', hpt', hcons'⟩ := candidate_to_comp hsstp ht0p hst_ne hpp'
    have hptne : pt' ≠ c.pt := by
      intro hh
      have h0 : (hvec sst t0).1 * (dirOf c.pt).1 +
          (hvec sst t0).2 * (dirOf c.pt).2 = 0 := by
        rw [← hh]
        exact horthV
      have hform := hα t0
      rw [h0] at hform
      linarith [hαt0]
    refine ⟨c', hc', by rw [hpt']; exact hptne, true, r1,
      by rw [hcons']; exact hep', by rw [hpt']; exact hr1⟩
  · have hKlt : sgnQ m * xi < 0 :=
      lt_of_le_of_ne (not_lt.mp hK) (mul_ne_zero hsgn hxine)
    have hall : ∀ u ∈ p, u.key ≠ sst.key → u.key ≠ t0.key →
        evalTerm u pt' ≠ evalTerm sst pt' →
        solveIneq m (evalTerm sst pt') (evalTerm u pt') = some none ∨
        (∃ q, solveIneq m (evalTerm sst pt') (evalTerm u pt') =
            some (some (.gtB q)) ∧ (if false then q ≤ r1 else q < r1)) ∨
        (∃ q, solveIneq m (evalTerm sst pt') (evalTerm u pt') =
            some (some (.ltB q)) ∧ (if false then r1 < q else r1 ≤ q)) := by
      intro u hu hks hkt hcv
      by_cases hut : dq m x u c.pt r0 = 0
      · have hdq0 : dq m sst u pt' r1 = 0 := by
          rw [htrans u]
          exact hut
        rcases lt_or_eq_of_le (hcross_le u hu hut hks) with hclt | hc0
        · have hzneg : zsl m sst u pt' < 0 := by
            rw [hz' u]
            exact mul_neg_of_pos_of_neg (neg_pos.mpr hKlt) hclt
          exact Or.inr (Or.inr ⟨r1, hall_of_tie_neg hdq0 hzneg, by simp⟩)
        · exfalso
          apply hcv
          refine evalTerm_eq_of ?_ hdq0
          rw [hz' u, hc0, mul_zero]
      · exact hall_of_pos (huntied u hu hut hks hkt) false
    have hbind : ∃ u ∈ p, u.key ≠ sst.key ∧ u.key ≠ t0.key ∧
        evalTerm u pt' ≠ evalTerm sst pt' ∧
        solveIneq m (evalTerm sst pt') (evalTerm u pt') =
          some (some (if false then .gtB r1 else .ltB r1)) := by
      have hu0z : zsl m sst u0 pt' < 0 := by
        rw [hz' u0]
        exact mul_neg_of_pos_of_neg (neg_pos.mpr hKlt) hu0lt
      exact ⟨u0, hu0p, hu0ks, hu0kt, evalTerm_ne_of_zsl (ne_of_lt hu0z),
        by simpa using hall_of_tie_neg hu0dq hu0z⟩
    obtain ⟨cs', hpp', hep'⟩ := endpoint_production hest r1 false hall hbind
    obtain ⟨c', hc', hpt', hcons'⟩ := candidate_to_comp hsstp ht0p hst_ne hpp'
    have hptne : pt' ≠ c.pt := by
      intro hh
      have h0 : (hvec sst t0).1 * (dirOf c.pt).1 +
          (hvec sst t0).2 * (dirOf c.pt).2 = 0 := by
        rw [← hh]
        exact horthV
      have hform := hα t0
      rw [h0] at hform
      linarith [hαt0]
    refine ⟨c', hc', by rw [hpt']; exact hptne, false, r1,
      by rw [hcons']; exact hep', by rw [hpt']; exact hr1⟩

theorem second_incidence {m : Bool} {p : List Term2}
    (hN : (p.map Term2.key).Nodup) {c : Comp}
    (hc : c ∈ dedup (candidates m p)) {side : Bool} {r0 : ℚ}
    (hep : endpointAt side c.cons = some r0) :
    ∃ c' ∈ dedup (candidates m p), c' ≠ c ∧ ∃ side' r1,
      endpointAt side' c'.cons = some r1 ∧
      evalPt c'.pt r1 = evalPt c.pt r0 := by
  obtain ⟨x, y, hx, hy, he, hdom, ⟨cst, hcstp, hkcx, hkcy, hcsttie, hcstsl⟩,
    hshape⟩ := comp_endpoint_data hc hep
  have hxT : x ∈ p.filter (fun v => dq m x v c.pt r0 = 0) :=
    mem_tied.mpr ⟨hx, dq_self m x c.pt r0⟩
  obtain ⟨W, sst, hsstT, hsstW, hWmax'⟩ := exists_max_image
    (f := fun u => esign side * zsl m x u c.pt) hxT
  obtain ⟨hsstp, hstie⟩ := mem_tied.mp hsstT
  have hWmax : ∀ u ∈ p, dq m x u c.pt r0 = 0 →
      esign side * zsl m x u c.pt ≤ esign side * zsl m x sst c.pt := by
    intro u hu ht
    rw [hsstW]
    exact hWmax' u (mem_tied.mpr ⟨hu, ht⟩)
  have hWpos : 0 < esign side * zsl m x sst c.pt :=
    lt_of_lt_of_le hcstsl (hWmax cst hcstp hcsttie)
  by_cases hA : ∃ t0 ∈ p, dq m x t0 c.pt r0 = 0 ∧ t0.key ≠ sst.key ∧
      zsl m x t0 c.pt = zsl m x sst c.pt
  · obtain ⟨t0, ht0p, ht0tie, hkt0, hWe⟩ := hA
    have hepne : endpointAt (!side) c.cons ≠ some r0 := by
      rcases hshape with ⟨hs, hcc | ⟨U, hU, hcc⟩⟩ | ⟨hs, hcc | ⟨L, hL, hcc⟩⟩
      · subst hs
        rw [hcc]
        simp [endpointAt, interval]
      · subst hs
        rw [hcc]
        simp only [endpointAt, Bool.not_true, Bool.false_eq_true, if_false,
          interval, Constr.leftVal, Constr.rightVal, Option.some.injEq]
        intro hh
        rw [Option.some.injEq] at hh
        rw [hh] at hU
        exact lt_irrefl r0 hU
      · subst hs
        rw [hcc]
        simp [endpointAt, interval]
      · subst hs
        rw [hcc]
        simp only [endpointAt, Bool.not_false, if_pos, interval,
          Constr.leftVal, Constr.rightVal, Option.some.injEq]
        intro hh
        rw [Option.some.injEq] at hh
        rw [hh] at hL
        exact lt_irrefl r0 hL
    obtain ⟨c', hc', hpt', hconsne, hep'⟩ :=
      second_incidence_same_line hN hx hy he hdom hsstp ht0p (Ne.symm hkt0)
        hstie ht0tie hWmax hWe hWpos hepne
    exact ⟨c', hc', fun hh => hconsne (by rw [hh]), !side, r0, hep',
      by rw [hpt']⟩
  · push_neg at hA
    have hB : ∀ u ∈ p, dq m x u c.pt r0 = 0 → u.key ≠ sst.key →
        esign side * zsl m x u c.pt < esign side * zsl m x sst c.pt := by
      intro u hu ht hk
      rcases lt_or_eq_of_le (hWmax u hu ht) with hlt | heq
      · exact hlt
      · exact absurd (mul_left_cancel₀ (esign_ne_zero side) heq)
          (hA u hu ht hk)
    obtain ⟨c', hc', hptne, side', r1, hep', hev⟩ :=
      second_incidence_cross_line hN hx hy he hdom hcstp hcsttie hcstsl
        hsstp hstie hWmax hB
    exact ⟨c', hc', fun hh => hptne (by rw [hh]), side', r1, hep', hev⟩

/-!
## Counting the incidences grouped under one vertex key
-/

theorem addInc_cons_pos {kk : ℚ × ℚ} {v : ℕ × Bool} {ek : ℚ × ℚ}
    {el : List (ℕ × Bool)} {rest : List ((ℚ × ℚ) × List (ℕ × Bool))}
    (he : ek = kk) :
    addInc kk v ((ek, el) :: rest) = (ek, el ++ [v]) :: rest := by
  rw [show addInc kk v ((ek, el) :: rest) = if ek = kk then
    (ek, el ++ [v]) :: rest else (ek, el) :: addInc kk v rest from rfl,
    if_pos he]

theorem addInc_cons_neg {kk : ℚ × ℚ} {v : ℕ × Bool} {ek : ℚ × ℚ}
    {el : List (ℕ × Bool)} {rest : List ((ℚ × ℚ) × List (ℕ × Bool))}
    (he : ¬(ek = kk)) :
    addInc kk v ((ek, el) :: rest) = (ek, el) :: addInc kk v rest := by
  rw [show addInc kk v ((ek, el) :: rest) = if ek = kk then
    (ek, el ++ [v]) :: rest else (ek, el) :: addInc kk v rest from rfl,
    if_neg he]

theorem lenAt_nil (k : ℚ × ℚ) : lenAt k [] = 0 := rfl

theorem lenAt_cons (k : ℚ × ℚ) (e : (ℚ × ℚ) × List (ℕ × Bool))
    (ms : List ((ℚ × ℚ) × List (ℕ × Bool))) :
    lenAt k (e :: ms) = (if e.1 = k then e.2.length else 0) + lenAt k ms := by
  unfold lenAt
  rw [List.filter_cons]
  by_cases h : e.1 = k
  · rw [if_pos (by simpa using h), if_pos h]
    simp
  · rw [if_neg (by simpa using h), if_neg h]
    simp

theorem lenAt_addInc (kk k : ℚ × ℚ) (v : ℕ × Bool)
    (ms : List ((ℚ × ℚ) × List (ℕ × Bool))) :
    lenAt k (addInc kk v ms) = lenAt k ms + (if kk = k then 1 else 0) := by
  induction ms with
  | nil =>
    show lenAt k [(kk, [v])] = lenAt k [] + _
    rw [lenAt_cons, lenAt_nil]
    by_cases h : kk = k <;> simp [h]
  | cons e rest ih =>
    obtain ⟨ek, el⟩ := e
    show lenAt k (if ek = kk then (ek, el ++ [v]) :: rest
      else (ek, el) :: addInc kk v rest) = _
    by_cases he : ek = kk
    · rw [if_pos he, lenAt_cons, lenAt_cons]
      subst he
      by_cases hk : ek = k
      · rw [if_pos hk, if_pos hk, if_pos (show ek = k from hk)]
        simp only [List.length_append, List.length_cons, List.length_nil]
        omega
      · rw [if_neg hk, if_neg hk, if_neg (show ¬(ek = k) from hk)]
        simp
    · rw [if_neg he, lenAt_cons, lenAt_cons, ih]
      omega

theorem lenAt_foldl (es : List ((ℚ × ℚ) × (ℕ × Bool)))
    (ms : List ((ℚ × ℚ) × List (ℕ × Bool))) (k : ℚ × ℚ) :
    lenAt k (es.foldl (fun m e => addInc e.1 e.2 m) ms) =
      lenAt k ms + (es.filter (fun e => e.1 = k)).length := by
  induction es generalizing ms with
  | nil => simp
  | cons e rest ih =>
    rw [List.foldl_cons, ih, lenAt_addInc, List.filter_cons]
    by_cases h : e.1 = k
    · rw [if_pos h, if_pos (show decide (e.1 = k) = true by simpa using h)]
      simp only [List.length_cons]
      omega
    · rw [if_neg h,
        if_neg (show ¬(decide (e.1 = k) = true) by simpa using h)]
      omega

theorem addInc_keys_sub {kk : ℚ × ℚ} {v : ℕ × Bool}
    {ms : List ((ℚ × ℚ) × List (ℕ × Bool))} {k' : ℚ × ℚ}
    (h : k' ∈ (addInc kk v ms).map Prod.fst) :
    k' ∈ ms.map Prod.fst ∨ k' = kk := by
  induction ms with
  | nil =>
    simp only [addInc, List.map_cons, List.map_nil, List.mem_cons,
      List.not_mem_nil, or_false] at h
    exact Or.inr h
  | cons e rest ih =>
    obtain ⟨ek, el⟩ := e
    by_cases he : ek = kk
    · rw [addInc_cons_pos he] at h
      simp only [List.map_cons, List.mem_cons] at h ⊢
      rcases h with h | h
      · exact Or.inl (Or.inl h)
      · exact Or.inl (Or.inr h)
    · rw [addInc_cons_neg he] at h
      simp only [List.map_cons, List.mem_cons] at h ⊢
      rcases h with h | h
      · exact Or.inl (Or.inl h)
      · rcases ih h with hh | hh
        · exact Or.inl (Or.inr hh)
        · exact Or.inr hh

theorem addInc_keys_nodup {kk : ℚ × ℚ} {v : ℕ × Bool}
    {ms : List ((ℚ × ℚ) × List (ℕ × Bool))}
    (h : (ms.map Prod.fst).Nodup) :
    ((addInc kk v ms).map Prod.fst).Nodup := by
  induction ms with
  | nil => simp [addInc]
  | cons e rest ih =>
    obtain ⟨ek, el⟩ := e
    simp only [List.map_cons, List.nodup_cons] at h
    by_cases he : ek = kk
    · rw [addInc_cons_pos he]
      simp only [List.map_cons, List.nodup_cons]
      exact h
    · rw [addInc_cons_neg he]
      simp only [List.map_cons, List.nodup_cons]
      refine ⟨?_, ih h.2⟩
      intro hmem
      rcases addInc_keys_sub hmem with hh | hh
      · exact h.1 hh
      · exact he hh

theorem foldl_keys_nodup (es : List ((ℚ × ℚ) × (ℕ × Bool)))
    (ms : List ((ℚ × ℚ) × List (ℕ × Bool)))
    (h : (ms.map Prod.fst).Nodup) :
    (((es.foldl (fun m e => addInc e.1 e.2 m) ms)).map Prod.fst).Nodup := by
  induction es generalizing ms with
  | nil => exact h
  | cons e rest ih => exact ih _ (addInc_keys_nodup h)

theorem addInc_entries_ne_nil {kk : ℚ × ℚ} {v : ℕ × Bool}
    {ms : List ((ℚ × ℚ) × List (ℕ × Bool))}
    (h : ∀ e ∈ ms, e.2 ≠ []) :
    ∀ e ∈ addInc kk v ms, e.2 ≠ [] := by
  induction ms with
  | nil =>
    intro e he
    simp only [addInc, List.mem_cons, List.not_mem_nil, or_false] at he
    rw [he]
    simp
  | cons e0 rest ih =>
    obtain ⟨ek, el⟩ := e0
    intro e he
    by_cases hek : ek = kk
    · rw [addInc_cons_pos hek] at he
      rcases List.mem_cons.mp he with hh | hh
      · rw [hh]
        simp
      · exact h e (List.mem_cons_of_mem _ hh)
    · rw [addInc_cons_neg hek] at he
      rcases List.mem_cons.mp he with hh | hh
      · rw [hh]
        exact h (ek, el) (List.mem_cons_self _ _)
      · exact ih (fun e2 he2 => h e2 (List.mem_cons_of_mem _ he2)) e hh

theorem foldl_entries_ne_nil (es : List ((ℚ × ℚ) × (ℕ × Bool)))
    (ms : List ((ℚ × ℚ) × List (ℕ × Bool)))
    (h : ∀ e ∈ ms, e.2 ≠ []) :
    ∀ e ∈ es.foldl (fun m e => addInc e.1 e.2 m) ms, e.2 ≠ [] := by
  induction es generalizing ms with
  | nil => exact h
  | cons e rest ih => exact ih _ (addInc_entries_ne_nil h)

theorem lenAt_of_not_mem {k : ℚ × ℚ}
    {ms : List ((ℚ × ℚ) × List (ℕ × Bool))}
    (h : k ∉ ms.map Prod.fst) : lenAt k ms = 0 := by
  induction ms with
  | nil => rfl
  | cons e rest ih =>
    simp only [List.map_cons, List.mem_cons, not_or] at h
    rw [lenAt_cons, if_neg (fun hh => h.1 hh.symm), ih h.2]

theorem lenAt_of_mem {k : ℚ × ℚ} {l : List (ℕ × Bool)}
    {ms : List ((ℚ × ℚ) × List (ℕ × Bool))}
    (hnd : (ms.map Prod.fst).Nodup) (h : (k, l) ∈ ms) :
    lenAt k ms = l.length := by
  induction ms with
  | nil => cases h
  | cons e rest ih =>
    simp only [List.map_cons, List.nodup_cons] at hnd
    rcases List.mem_cons.mp h with hh | hh
    · rw [← hh, lenAt_cons]
      rw [← hh] at hnd
      dsimp only
      rw [if_pos rfl, lenAt_of_not_mem hnd.1, add_zero]
    · have hk : e.1 ≠ k := by
        intro hek
        apply hnd.1
        rw [hek]
        exact List.mem_map.mpr ⟨(k, l), hh, rfl⟩
      rw [lenAt_cons, if_neg hk, ih hnd.2 hh, zero_add]

theorem fold_entry_spec {es : List ((ℚ × ℚ) × (ℕ × Bool))} {k : ℚ × ℚ}
    {l : List (ℕ × Bool)}
    (h : (k, l) ∈ es.foldl (fun m e => addInc e.1 e.2 m) []) :
    l.length = (es.filter (fun e => e.1 = k)).length ∧ l ≠ [] := by
  have hnd := foldl_keys_nodup es [] (by simp)
  have h1 := lenAt_of_mem hnd h
  rw [lenAt_foldl, lenAt_nil, zero_add] at h1
  exact ⟨h1.symm, foldl_entries_ne_nil es [] (by simp) (k, l) h⟩

theorem foldl_flatMap_addInc {α : Type} (g : α → List ((ℚ × ℚ) × (ℕ × Bool)))
    (l : List α) (ms : List ((ℚ × ℚ) × List (ℕ × Bool))) :
    (l.flatMap g).foldl (fun m e => addInc e.1 e.2 m) ms =
      l.foldl (fun m a =>
        (g a).foldl (fun m e => addInc e.1 e.2 m) m) ms := by
  induction l generalizing ms with
  | nil => rfl
  | cons a rest ih =>
    rw [List.flatMap_cons, List.foldl_append, List.foldl_cons, ih]

theorem vertComp_eq_fold {tv : TropicalVariety}
    (h3 : 3 ≤ tv.hypersurface.length) :
    vertComp tv =
      (endpointEvents tv).foldl (fun ms e => addInc e.1 e.2 ms) [] := by
  unfold vertComp endpointEvents
  rw [if_pos h3, foldl_flatMap_addInc]
  congr 1
  funext ms ic
  rcases hint : interval ic.2.cons with ⟨lo, up⟩
  rcases lo with _ | q <;> rcases up with _ | q' <;>
    simp only [hint, List.foldl_cons, List.foldl_nil, List.nil_append,
      List.append_nil, List.cons_append]

theorem endpointEvents_decode {tv : TropicalVariety} {k : ℚ × ℚ} {i : ℕ}
    {sd : Bool} (h : (k, (i, sd)) ∈ endpointEvents tv) :
    ∃ hlt : i < tv.hypersurface.length, ∃ r,
      endpointAt sd (tv.hypersurface[i]).cons = some r ∧
      evalPt (tv.hypersurface[i]).pt r = k := by
  unfold endpointEvents at h
  rw [List.mem_flatMap] at h
  obtain ⟨ic, hic, hin⟩ := h
  obtain ⟨j, cc⟩ := ic
  obtain ⟨hlt, hgt⟩ := List.mem_enum hic
  rw [List.mem_append] at hin
  rcases hin with hin | hin
  · rcases hl : (interval cc.cons).1 with _ | q
    · rw [hl] at hin
      cases hin
    · rw [hl] at hin
      simp only [List.mem_cons, List.not_mem_nil, or_false,
        Prod.mk.injEq] at hin
      obtain ⟨hk, hj, hsd⟩ := hin
      subst hj
      subst hsd
      refine ⟨hlt, q, ?_, ?_⟩
      · rw [← hgt]
        simp [endpointAt, hl]
      · rw [← hgt]
        exact hk.symm
  · rcases hl : (interval cc.cons).2 with _ | q
    · rw [hl] at hin
      cases hin
    · rw [hl] at hin
      simp only [List.mem_cons, List.not_mem_nil, or_false,
        Prod.mk.injEq] at hin
      obtain ⟨hk, hj, hsd⟩ := hin
      subst hj
      subst hsd
      refine ⟨hlt, q, ?_, ?_⟩
      · rw [← hgt]
        simp [endpointAt, hl]
      · rw [← hgt]
        exact hk.symm

theorem endpointEvents_encode {tv : TropicalVariety} {i : ℕ}
    (hlt : i < tv.hypersurface.length) {sd : Bool} {r : ℚ}
    (hep : endpointAt sd (tv.hypersurface[i]).cons = some r) :
    (evalPt (tv.hypersurface[i]).pt r, (i, sd)) ∈ endpointEvents tv := by
  unfold endpointEvents
  rw [List.mem_flatMap]
  refine ⟨(i, tv.hypersurface[i]), ?_, ?_⟩
  · have hlt2 : i < tv.hypersurface.enum.length := by
      rw [List.enum_length]
      exact hlt
    have h1 := List.getElem_enum tv.hypersurface i hlt2
    rw [← h1]
    exact List.getElem_mem hlt2
  · rw [List.mem_append]
    cases sd with
    | true =>
      left
      simp only [endpointAt, if_pos] at hep
      rw [hep]
      simp
    | false =>
      right
      simp only [endpointAt, Bool.false_eq_true, if_false] at hep
      rw [hep]
      simp

theorem two_le_length_of_two_mem {α : Type} {a b : α} {l : List α}
    (ha : a ∈ l) (hb : b ∈ l) (hne : a ≠ b) : 2 ≤ l.length := by
  induction l with
  | nil => cases ha
  | cons x rest ih =>
    rcases List.mem_cons.mp ha with h1 | h1
    · rcases List.mem_cons.mp hb with h2 | h2
      · exact absurd (h1.trans h2.symm) hne
      · have hpos := List.length_pos.mpr (List.ne_nil_of_mem h2)
        simp only [List.length_cons]
        omega
    · have hpos := List.length_pos.mpr (List.ne_nil_of_mem h1)
      simp only [List.length_cons]
      omega

theorem vertComp_min_incidences {m : Bool} {p : List Term2}
    (hN : (p.map Term2.key).Nodup) :
    ∀ kl ∈ vertComp (buildTV m p), 2 ≤ kl.2.length := by
  intro kl hmem
  by_cases h3 : 3 ≤ (buildTV m p).hypersurface.length
  case neg =>
    unfold vertComp at hmem
    rw [if_neg h3] at hmem
    cases hmem
  obtain ⟨k, l⟩ := kl
  rw [vertComp_eq_fold h3] at hmem
  obtain ⟨hlen, hnil⟩ := fold_entry_spec hmem
  dsimp only
  have hfil_ne : (endpointEvents (buildTV m p)).filter
      (fun e => e.1 = k) ≠ [] := by
    intro hh
    rw [hh] at hlen
    simp only [List.length_nil] at hlen
    exact hnil (List.length_eq_zero.mp hlen)
  obtain ⟨e1, he1⟩ := List.exists_mem_of_ne_nil _ hfil_ne
  obtain ⟨he1es, he1k⟩ := List.mem_filter.mp he1
  obtain ⟨k1, i, sd⟩ := e1
  have hk1 : k1 = k := by simpa using he1k
  subst hk1
  obtain ⟨hlt, r0, hep0, hev0⟩ := endpointEvents_decode he1es
  have hne1 : ¬(p.length = 1) := by
    intro hh
    unfold buildTV at h3
    rw [if_pos hh] at h3
    simp at h3
  have hhyp : (buildTV m p).hypersurface = dedup (candidates m p) := by
    unfold buildTV
    rw [if_neg hne1]
  have hcmem : (buildTV m p).hypersurface[i] ∈ dedup (candidates m p) := by
    rw [← hhyp]
    exact List.getElem_mem hlt
  obtain ⟨c', hc'mem, hcne, side', r1, hep', hev'⟩ :=
    second_incidence hN hcmem hep0
  rw [← hhyp] at hc'mem
  obtain ⟨i', hi', hgi⟩ := List.mem_iff_getElem.mp hc'mem
  have hine : i' ≠ i := by
    intro hh
    apply hcne
    subst hh
    exact hgi.symm
  have hev2 := endpointEvents_encode hi' (by rw [hgi]; exact hep')
  have hkey2 : evalPt ((buildTV m p).hypersurface[i']).pt r1 = k1 := by
    rw [hgi, hev', hev0]
  rw [hkey2] at hev2
  have he2fil : ((k1, (i', side')) : (ℚ × ℚ) × (ℕ × Bool)) ∈
      (endpointEvents (buildTV m p)).filter (fun e => e.1 = k1) :=
    List.mem_filter.mpr ⟨hev2, by simp⟩
  have hne12 : ((k1, (i, sd)) : (ℚ × ℚ) × (ℕ × Bool)) ≠ (k1, (i', side')) := by
    intro hh
    injection hh with hh1 hh2
    injection hh2 with hh3 hh4
    exact hine hh3.symm
  have h2 := two_le_length_of_two_mem he1 he2fil hne12
  rw [hlen]
  exact h2

theorem vertices_of_small {m : Bool} {p : List Term2}
    (hne : (buildTV m p).hypersurface ≠ [])
    (h3 : numberOfComponents (buildTV m p) < 3) :
    vertices (buildTV m p) = .ok [] := by
  have hvc : vertComp (buildTV m p) = [] := by
    unfold vertComp
    rw [if_neg (by unfold numberOfComponents at h3; omega)]
  unfold vertices vectorsOfVertices
  rcases hh : (buildTV m p).hypersurface with _ | ⟨c, cs⟩
  · exact absurd hh hne
  · dsimp only
    unfold incidenceVectors
    rw [hvc]
    rfl

theorem vertices_keys {m : Bool} {p : List Term2}
    (hne : (buildTV m p).hypersurface ≠ []) :
    vertices (buildTV m p) =
      .ok ((vertComp (buildTV m p)).map Prod.fst) := by
  unfold vertices vectorsOfVertices
  rcases hh : (buildTV m p).hypersurface with _ | ⟨c, cs⟩
  · exact absurd hh hne
  · dsimp only
    unfold incidenceVectors
    rw [List.map_map]
    rfl

theorem vertices_of_empty {m : Bool} {p : List Term2}
    (hemp : (buildTV m p).hypersurface = []) :
    vertices (buildTV m p) = .err .indexErr := by
  unfold vertices vectorsOfVertices
  rw [hemp]

/-- C6: for every two-variable tropical polynomial — a term dictionary,
so its exponent keys are pairwise distinct — a coordinate point is a key
of the curve's vertex grouping only together with at least two
finite-interval-endpoint incidences of components falling on it, and
`vertices()` returns exactly those keys whenever the curve has at least
one component; with one or two components `vertices()` is empty.  The
claim's further promise that it is empty for every curve with fewer than
three components fails: with zero components (a single-term polynomial)
`vertices()` raises `IndexError` from `self._hypersurface[0]`, as the
separate counterexample records. -/
theorem c6_vertex_incidences :
    (∀ (m : Bool) (p : List Term2), (p.map Term2.key).Nodup →
      ∀ kl ∈ vertComp (buildTV m p), 2 ≤ kl.2.length) ∧
    (∀ (m : Bool) (p : List Term2), (buildTV m p).hypersurface ≠ [] →
      vertices (buildTV m p) =
        .ok ((vertComp (buildTV m p)).map Prod.fst)) ∧
    (∀ (m : Bool) (p : List Term2), (buildTV m p).hypersurface ≠ [] →
      numberOfComponents (buildTV m p) < 3 →
      vertices (buildTV m p) = .ok []) ∧
    (∀ (m : Bool) (p : List Term2), (buildTV m p).hypersurface = [] →
      vertices (buildTV m p) = .err .indexErr) :=
  ⟨fun _ _ hN => vertComp_min_incidences hN,
   fun _ _ hne => vertices_keys hne,
   fun _ _ hne h3 => vertices_of_small hne h3,
   fun _ _ hemp => vertices_of_empty hemp⟩

/-- C6 counterexample: the single-term polynomial `0*x*y` yields a curve
with zero components, fewer than three, yet `vertices()` raises
`IndexError` (line 764 reads `self._hypersurface[0]`) instead of
returning the empty set the claim promises. -/
theorem c6_counterexample :
    numberOfComponents (buildTV false [⟨1, 1, 0⟩]) < 3 ∧
    vertices (buildTV false [⟨1, 1, 0⟩]) ≠ .ok [] ∧
    vertices (buildTV false [⟨1, 1, 0⟩]) = .err .indexErr := by
  refine ⟨by decide, ?_, by decide⟩
  intro hh
  rw [show vertices (buildTV false [⟨1, 1, 0⟩]) = .err .indexErr
    from by decide] at hh
  cases hh

theorem c6_vertex_incidences_witness :
    ((exPoly.map Term2.key).Nodup ∧
      ∀ kl ∈ vertComp (buildTV false exPoly), 2 ≤ kl.2.length) ∧
    ((buildTV false exPoly).hypersurface ≠ [] ∧
      vertices (buildTV false exPoly) =
        .ok ((vertComp (buildTV false exPoly)).map Prod.fst)) ∧
    ((buildTV false [⟨0, 0, 0⟩, ⟨1, 0, 0⟩]).hypersurface ≠ [] ∧
      numberOfComponents (buildTV false [⟨0, 0, 0⟩, ⟨1, 0, 0⟩]) < 3 ∧
      vertices (buildTV false [⟨0, 0, 0⟩, ⟨1, 0, 0⟩]) = .ok []) ∧
    ((buildTV false [⟨1, 1, 0⟩]).hypersurface = [] ∧
      vertices (buildTV false [⟨1, 1, 0⟩]) = .err .indexErr) :=
  ⟨⟨by decide, c6_vertex_incidences.1 false exPoly (by decide)⟩,
   ⟨by decide, c6_vertex_incidences.2.1 false exPoly (by decide)⟩,
   ⟨by decide, by decide,
     c6_vertex_incidences.2.2.1 false [⟨0, 0, 0⟩, ⟨1, 0, 0⟩] (by decide)
       (by decide)⟩,
   ⟨by decide, c6_vertex_incidences.2.2.2 false [⟨1, 1, 0⟩] (by decide)⟩⟩

end TropVar
